import Mathlib

/-!
Verification of the dynamic operation binding engine of an MCP connectors
server.  The development shallowly embeds the TypeScript sources: the key
sanitizer and tool-name builder, the operation filter and family
deduplicator, the invocation translator, the ARM request retry pipeline
with its error shaping, and the lifecycle of the process-wide schema cache
and tool registry.  Stateful code is modelled by explicit state passing;
the HTTP transport and the token provider are modelled as oracles supplied
as arguments; machine maps (the JS Map and plain objects) are modelled as
insertion-ordered association lists.
-/

set_option autoImplicit false

universe u v

/-! ## Association lists: the model of JS Map and of plain JS objects.
Insertion order is preserved; setting an existing key replaces the value
in place, setting a fresh key appends. -/

def assocFind {α : Type u} (l : List (String × α)) (k : String) : Option α :=
  match l with
  | [] => none
  | (k1, v) :: rest => if k1 = k then some v else assocFind rest k

def assocSet {α : Type u} (l : List (String × α)) (k : String) (v : α) :
    List (String × α) :=
  match l with
  | [] => [(k, v)]
  | (k1, v1) :: rest =>
    if k1 = k then (k, v) :: rest else (k1, v1) :: assocSet rest k v

theorem assocFind_assocSet_self {α : Type u} (l : List (String × α)) (k : String) (v : α) :
    assocFind (assocSet l k v) k = some v := by
  induction l with
  | nil => simp [assocSet, assocFind]
  | cons hd tl ih =>
    obtain ⟨k1, v1⟩ := hd
    by_cases h : k1 = k <;> simp [assocSet, assocFind, h, ih]

theorem assocFind_assocSet_ne {α : Type u} (l : List (String × α)) (k k2 : String) (v : α)
    (h : k ≠ k2) : assocFind (assocSet l k v) k2 = assocFind l k2 := by
  induction l with
  | nil => simp [assocSet, assocFind, h]
  | cons hd tl ih =>
    obtain ⟨k1, v1⟩ := hd
    by_cases h1 : k1 = k
    · subst h1
      simp [assocSet, assocFind, h]
    · simp [assocSet, assocFind, h1, ih]

theorem assocSet_of_find_none {α : Type u} (l : List (String × α)) (k : String) (v : α)
    (h : assocFind l k = none) : assocSet l k v = l ++ [(k, v)] := by
  induction l with
  | nil => simp [assocSet]
  | cons hd tl ih =>
    obtain ⟨k1, v1⟩ := hd
    by_cases h1 : k1 = k
    · simp [assocFind, h1] at h
    · simp [assocFind, h1] at h
      simp [assocSet, h1, ih h]

theorem assocFind_append_left {α : Type u} (l l2 : List (String × α)) (k : String)
    (h : (assocFind l k).isSome) : assocFind (l ++ l2) k = assocFind l k := by
  induction l with
  | nil => simp [assocFind] at h
  | cons hd tl ih =>
    obtain ⟨k1, v1⟩ := hd
    by_cases h1 : k1 = k
    · simp [assocFind, h1]
    · simp [assocFind, h1] at h ⊢
      exact ih h

theorem mem_assocSet {α : Type u} (l : List (String × α)) (k : String) (v : α)
    (p : String × α) (h : p ∈ assocSet l k v) : p = (k, v) ∨ p ∈ l := by
  induction l with
  | nil => simp [assocSet] at h; simp [h]
  | cons hd tl ih =>
    obtain ⟨k1, v1⟩ := hd
    by_cases h1 : k1 = k
    · simp [assocSet, h1] at h
      rcases h with h | h
      · left; simp [h]
      · right; simp [h]
    · simp [assocSet, h1] at h
      rcases h with h | h
      · right; simp [h]
      · rcases ih h with h2 | h2
        · left; exact h2
        · right; simp [h2]

theorem assocFind_isSome_of_mem {α : Type u} (l : List (String × α)) (k : String) (v : α)
    (h : (k, v) ∈ l) : (assocFind l k).isSome := by
  induction l with
  | nil => simp at h
  | cons hd tl ih =>
    obtain ⟨k1, v1⟩ := hd
    by_cases h1 : k1 = k
    · simp [assocFind, h1]
    · simp [assocFind, h1]
      rcases (List.mem_cons.mp h) with h2 | h2
      · exact absurd (congrArg Prod.fst h2).symm h1
      · exact ih h2

/-! ## Key sanitization (zodGenerator.ts, sanitizeKey).
The source applies, in order: replace every character outside the class
[a-zA-Z0-9_.-] by an underscore; strip the leading run of dots and
hyphens; collapse runs of underscores to a single underscore; truncate to
64 characters; substitute "param" for an empty result. -/

/-- The character class [a-zA-Z0-9_.-] of the MCP tool-name pattern. -/
def isAllowedChar (c : Char) : Bool :=
  c.isAlphanum || c == '_' || c == '.' || c == '-'

/-- One leading dot or hyphen, as dropped by the second sanitization step. -/
def isDotDash (c : Char) : Bool :=
  c == '.' || c == '-'

/-- Collapse every run of underscores to a single underscore (the global
regex replacement of runs of underscores in the source). -/
def collapseUnderscores : List Char → List Char
  | [] => []
  | [c] => [c]
  | c1 :: c2 :: rest =>
    if c1 == '_' && c2 == '_' then collapseUnderscores (c2 :: rest)
    else c1 :: collapseUnderscores (c2 :: rest)

/-- sanitizeKey from zodGenerator.ts, on the character list of the input. -/
def sanitizeKeyList (name : List Char) : List Char :=
  let step1 := name.map (fun c => if isAllowedChar c then c else '_')
  let step2 := step1.dropWhile isDotDash
  let step3 := collapseUnderscores step2
  let step4 := step3.take 64
  if step4.isEmpty then "param".data else step4

/-- sanitizeKey from zodGenerator.ts. -/
def sanitizeKey (name : String) : String :=
  String.mk (sanitizeKeyList name.data)

/-- The external naming pattern of MCP tool input keys and tool names,
written in the source as the regex of 1 to 64 characters drawn from
[a-zA-Z0-9_.-]. -/
def matchesNamePattern (s : String) : Bool :=
  s.data.all isAllowedChar && 1 ≤ s.data.length && s.data.length ≤ 64

/-- Absence of adjacent underscores, the state that step three of the
sanitizer establishes. -/
def noDouble : List Char → Bool
  | c1 :: c2 :: rest => !(c1 == '_' && c2 == '_') && noDouble (c2 :: rest)
  | _ => true

theorem mem_collapseUnderscores {c : Char} : ∀ l : List Char,
    c ∈ collapseUnderscores l → c ∈ l
  | [] => by simp [collapseUnderscores]
  | [d] => by simp [collapseUnderscores]
  | c1 :: c2 :: rest => by
    intro h
    by_cases hc : (c1 == '_' && c2 == '_') = true
    · simp only [collapseUnderscores, hc, if_pos] at h
      exact List.mem_cons_of_mem _ (mem_collapseUnderscores _ h)
    · simp only [collapseUnderscores, hc, if_neg, Bool.false_eq_true,
        not_false_eq_true, List.mem_cons] at h
      rcases h with h | h
      · simp [h]
      · exact List.mem_cons_of_mem _ (mem_collapseUnderscores _ h)

theorem head?_collapseUnderscores : ∀ l : List Char,
    (collapseUnderscores l).head? = l.head?
  | [] => rfl
  | [_] => rfl
  | c1 :: c2 :: rest => by
    by_cases hc : (c1 == '_' && c2 == '_') = true
    · have h1 : c1 = '_' := by
        have := (Bool.and_eq_true _ _).mp hc
        exact eq_of_beq this.1
      have h2 : c2 = '_' := by
        have := (Bool.and_eq_true _ _).mp hc
        exact eq_of_beq this.2
      simp only [collapseUnderscores, hc, if_pos]
      rw [head?_collapseUnderscores (c2 :: rest)]
      simp [h1, h2]
    · simp [collapseUnderscores, hc]

theorem noDouble_cons (c : Char) (xs : List Char) (h : noDouble xs = true)
    (hh : ∀ x, xs.head? = some x → (c == '_' && x == '_') = false) :
    noDouble (c :: xs) = true := by
  cases xs with
  | nil => rfl
  | cons x rest =>
    simp only [noDouble, Bool.and_eq_true, Bool.not_eq_true']
    exact ⟨hh x rfl, h⟩

theorem noDouble_collapseUnderscores : ∀ l : List Char,
    noDouble (collapseUnderscores l) = true
  | [] => rfl
  | [_] => rfl
  | c1 :: c2 :: rest => by
    by_cases hc : (c1 == '_' && c2 == '_') = true
    · simp only [collapseUnderscores, hc, if_pos]
      exact noDouble_collapseUnderscores (c2 :: rest)
    · simp only [collapseUnderscores, hc, if_neg, Bool.false_eq_true, not_false_eq_true]
      refine noDouble_cons _ _ (noDouble_collapseUnderscores (c2 :: rest)) ?_
      intro x hx
      rw [head?_collapseUnderscores (c2 :: rest)] at hx
      simp only [List.head?_cons, Option.some.injEq] at hx
      subst hx
      exact Bool.eq_false_iff.mpr (fun habs => hc habs)

theorem collapseUnderscores_eq_self : ∀ l : List Char,
    noDouble l = true → collapseUnderscores l = l
  | [], _ => rfl
  | [_], _ => rfl
  | c1 :: c2 :: rest, h => by
    simp only [noDouble, Bool.and_eq_true, Bool.not_eq_true'] at h
    simp only [collapseUnderscores, h.1, Bool.false_eq_true, if_neg, not_false_eq_true]
    rw [collapseUnderscores_eq_self (c2 :: rest) h.2]

theorem noDouble_take : ∀ (l : List Char) (n : Nat),
    noDouble l = true → noDouble (l.take n) = true
  | [], _, _ => by simp [noDouble]
  | [c], n, _ => by
    cases n with
    | zero => rfl
    | succ m => simp [List.take, noDouble]
  | c1 :: c2 :: rest, n, h => by
    cases n with
    | zero => rfl
    | succ m =>
      cases m with
      | zero => simp [List.take, noDouble]
      | succ k =>
        simp only [noDouble, Bool.and_eq_true, Bool.not_eq_true'] at h
        have ih := noDouble_take (c2 :: rest) (k + 1) h.2
        simp only [List.take, noDouble] at ih ⊢
        simp [h.1, ih]

theorem dropWhile_head?_false {p : Char → Bool} : ∀ (l : List Char) (x : Char),
    (l.dropWhile p).head? = some x → p x = false
  | [], x => by simp [List.dropWhile]
  | c :: rest, x => by
    intro h
    by_cases hc : p c = true
    · rw [List.dropWhile_cons_of_pos hc] at h
      exact dropWhile_head?_false rest x h
    · rw [List.dropWhile_cons_of_neg hc] at h
      simp only [List.head?_cons, Option.some.injEq] at h
      subst h
      exact Bool.eq_false_iff.mpr hc

theorem dropWhile_eq_self_of_head {p : Char → Bool} (l : List Char)
    (h : ∀ x, l.head? = some x → p x = false) : l.dropWhile p = l := by
  cases l with
  | nil => rfl
  | cons c rest =>
    have := h c rfl
    rw [List.dropWhile_cons_of_neg (by simp [this])]

theorem map_id_on {α : Type u} (f : α → α) : ∀ l : List α,
    (∀ x ∈ l, f x = x) → l.map f = l
  | [], _ => rfl
  | x :: rest, h => by
    simp only [List.map_cons]
    rw [h x (List.mem_cons_self _ _), map_id_on f rest (fun y hy => h y (List.mem_cons_of_mem _ hy))]

theorem sanitizeKeyList_allowed (l : List Char) {c : Char} (hc : c ∈ sanitizeKeyList l) :
    isAllowedChar c = true := by
  simp only [sanitizeKeyList] at hc
  split at hc
  · revert hc
    have h : ∀ x ∈ "param".data, isAllowedChar x = true := by decide
    exact h c
  · have h1 : c ∈ collapseUnderscores ((l.map
        (fun c => if isAllowedChar c then c else '_')).dropWhile isDotDash) :=
      List.take_subset 64 _ hc
    have h2 := mem_collapseUnderscores _ h1
    have h3 : c ∈ l.map (fun c => if isAllowedChar c then c else '_') :=
      (List.dropWhile_sublist _).subset h2
    obtain ⟨x, _, hfx⟩ := List.mem_map.mp h3
    by_cases hx : isAllowedChar x = true
    · rw [if_pos hx] at hfx
      rw [← hfx]; exact hx
    · rw [if_neg hx] at hfx
      rw [← hfx]; decide

theorem sanitizeKeyList_head (l : List Char) {x : Char}
    (hx : (sanitizeKeyList l).head? = some x) : isDotDash x = false := by
  simp only [sanitizeKeyList] at hx
  split at hx
  · have hx2 : some 'p' = some x := hx
    injection hx2 with hx3
    subst hx3
    decide
  · set s2 := (l.map (fun c => if isAllowedChar c then c else '_')).dropWhile isDotDash with hs2
    cases h3 : collapseUnderscores s2 with
    | nil => rw [h3] at hx; simp [List.take] at hx
    | cons a t =>
      rw [h3] at hx
      simp only [List.take, List.head?_cons, Option.some.injEq] at hx
      have ha : s2.head? = some a := by
        rw [← head?_collapseUnderscores s2, h3]; rfl
      rw [← hx]
      exact dropWhile_head?_false _ a ha

theorem sanitizeKeyList_noDouble (l : List Char) : noDouble (sanitizeKeyList l) = true := by
  simp only [sanitizeKeyList]
  split
  · decide
  · exact noDouble_take _ 64 (noDouble_collapseUnderscores _)

theorem sanitizeKeyList_length (l : List Char) : (sanitizeKeyList l).length ≤ 64 := by
  simp only [sanitizeKeyList]
  split
  · decide
  · rw [List.length_take]
    exact Nat.min_le_left _ _

theorem sanitizeKeyList_ne_nil (l : List Char) : sanitizeKeyList l ≠ [] := by
  simp only [sanitizeKeyList]
  split
  · decide
  · next h => exact fun habs => h (by rw [habs]; rfl)

theorem sanitizeKeyList_of_sanitized (r : List Char)
    (hall : ∀ c ∈ r, isAllowedChar c = true)
    (hhead : ∀ x, r.head? = some x → isDotDash x = false)
    (hnd : noDouble r = true) (hlen : r.length ≤ 64) (hne : r ≠ []) :
    sanitizeKeyList r = r := by
  simp only [sanitizeKeyList]
  rw [map_id_on _ r (fun x hx => by rw [if_pos (hall x hx)])]
  rw [dropWhile_eq_self_of_head r hhead]
  rw [collapseUnderscores_eq_self r hnd]
  rw [List.take_of_length_le hlen]
  rw [if_neg (by simpa [List.isEmpty_iff] using hne)]

/-- C6 — sanitizeKey is idempotent, its output always matches the naming
pattern of 1 to 64 characters from [a-zA-Z0-9_.-], and the concrete values
for "$filter", "$top" and the empty string are as specified. -/
theorem c6_sanitizeKey_idempotent_and_pattern :
    (∀ s : String, sanitizeKey (sanitizeKey s) = sanitizeKey s)
    ∧ (∀ s : String, matchesNamePattern (sanitizeKey s) = true)
    ∧ sanitizeKey "$filter" = "_filter"
    ∧ sanitizeKey "$top" = "_top"
    ∧ sanitizeKey "" = "param" := by
  refine ⟨?_, ?_, by decide, by decide, by decide⟩
  · intro s
    show String.mk (sanitizeKeyList (sanitizeKeyList s.data)) = String.mk (sanitizeKeyList s.data)
    rw [sanitizeKeyList_of_sanitized _
      (fun c hc => sanitizeKeyList_allowed s.data hc)
      (fun x hx => sanitizeKeyList_head s.data hx)
      (sanitizeKeyList_noDouble s.data)
      (sanitizeKeyList_length s.data)
      (sanitizeKeyList_ne_nil s.data)]
  · intro s
    have h1 : ∀ c ∈ sanitizeKeyList s.data, isAllowedChar c = true :=
      fun c hc => sanitizeKeyList_allowed s.data hc
    have h2 := sanitizeKeyList_length s.data
    have h3 := sanitizeKeyList_ne_nil s.data
    simp only [matchesNamePattern, sanitizeKey, Bool.and_eq_true, List.all_eq_true,
      decide_eq_true_eq]
    refine ⟨⟨fun c hc => h1 c hc, ?_⟩, h2⟩
    have := List.length_pos.mpr h3
    omega

/-! ## Tool naming (dynamicTools.ts, buildToolName).
The source builds the snake form of the operation id by two global regex
replacements - inserting an underscore at every boundary between a lower
case letter or digit and an upper case letter, and between a run of upper
case letters and an upper case letter followed by a lower case letter -
then lowercases, and prepends the api name and an underscore.  The two
replacements are embedded as single passes over the character list; the
passes insert exactly where the anchored global regexes match. -/

def snakeStep1 : List Char → List Char
  | c1 :: c2 :: rest =>
    if (c1.isLower || c1.isDigit) && c2.isUpper then c1 :: '_' :: snakeStep1 (c2 :: rest)
    else c1 :: snakeStep1 (c2 :: rest)
  | l => l

def snakeStep2 : List Char → List Char
  | c1 :: c2 :: c3 :: rest =>
    if c1.isUpper && c2.isUpper && c3.isLower then c1 :: '_' :: snakeStep2 (c2 :: c3 :: rest)
    else c1 :: snakeStep2 (c2 :: c3 :: rest)
  | l => l

/-- The snake form of an operation id, as computed inside buildToolName. -/
def snakeCase (operationId : String) : String :=
  String.mk ((snakeStep2 (snakeStep1 operationId.data)).map Char.toLower)

/-- buildToolName from dynamicTools.ts. -/
def buildToolName (apiName operationId : String) : String :=
  apiName ++ "_" ++ snakeCase operationId

/-- C5 (counterexample) — buildToolName does not truncate: with a 64
character api name the produced tool name has 67 characters and fails the
external naming pattern, refuting the claim that every produced tool name
matches the pattern of at most 64 characters. -/
theorem c5_counterexample :
    matchesNamePattern (buildToolName (String.mk (List.replicate 64 'a')) "Op") = false := by
  decide

/-- C5 (amended) — buildToolName is the api name, an underscore and the
snake form of the operation id, with the specified snake-casing examples;
no truncation is applied, so the length of the result always equals the
length of the api name plus one plus the length of the snake form. -/
theorem c5_buildToolName_amended :
    (∀ a o : String, buildToolName a o = a ++ "_" ++ snakeCase o)
    ∧ (∀ a o : String,
        (buildToolName a o).data.length = a.data.length + 1 + (snakeCase o).data.length)
    ∧ snakeCase "SendEmail" = "send_email"
    ∧ snakeCase "GetAllTeams" = "get_all_teams"
    ∧ snakeCase "V4CalendarPostItem" = "v4_calendar_post_item"
    ∧ buildToolName "office365" "SendEmail" = "office365_send_email" := by
  refine ⟨fun a o => rfl, ?_, by decide, by decide, by decide, by decide⟩
  intro a o
  show ((a ++ "_" ++ snakeCase o).data).length = _
  have h1 : ("_" : String).data.length = 1 := rfl
  rw [String.data_append, String.data_append, List.length_append, List.length_append, h1]

/-! ## Data model (openApiParser.ts interfaces).
Fields are carried as in the source interfaces; the optional fields that no
verified code path reads (formats, enums, defaults, dynamic value hints,
response schemas) are omitted from the embedding. -/

structure ApiAnnotation where
  family : String
  revision : Int
  status : String
deriving Repr, DecidableEq

inductive ParamLoc where
  | path
  | query
  | header
deriving Repr, DecidableEq

structure ParsedParameter where
  name : String
  paramIn : ParamLoc
  type : String
  required : Bool
  description : String
deriving Repr, DecidableEq

structure ParsedBodyProperty where
  name : String
  type : String
  description : String
  required : Bool
  visibility : String
deriving Repr, DecidableEq

structure ParsedRequestBody where
  required : Bool
  requiredFields : List String
  properties : List (String × ParsedBodyProperty)
deriving Repr, DecidableEq

structure ParsedOperation where
  operationId : String
  method : String
  path : String
  summary : String
  description : String
  deprecated : Bool
  visibility : String
  isTrigger : Bool
  apiAnnotation : Option ApiAnnotation
  parameters : List ParsedParameter
  requestBody : Option ParsedRequestBody
deriving Repr, DecidableEq

structure ConnectionInfo where
  name : String
  apiName : String
  displayName : String
  status : String
  apiId : String
deriving Repr, DecidableEq

/-! ## Operation filter and family deduplication (openApiParser.ts).
The source tests the family with a JS truthiness check on
op.apiAnnotation?.family, so a missing annotation and an empty family
string both count as no family.  The JS Set of winning operation objects
compares by reference; the embedding identifies each list entry with its
position, which coincides with reference identity for the object-per-entry
lists the parser produces. -/

/-- The family of an operation under the JS truthiness test of the source. -/
def familyOf (op : ParsedOperation) : Option String :=
  match op.apiAnnotation with
  | none => none
  | some a => if a.family = "" then none else some a.family

/-- The revision read off the annotation (only consulted when the family is
present). -/
def revisionOf (op : ParsedOperation) : Int :=
  match op.apiAnnotation with
  | none => 0
  | some a => a.revision

/-- The first loop of deduplicateByFamily: fill the family map with the
member of each family carrying the maximal revision, keeping the earlier
member on ties (the strict comparison of the source). -/
def dedupScan : List (Nat × ParsedOperation) → List (String × (Nat × ParsedOperation)) →
    List (String × (Nat × ParsedOperation))
  | [], m => m
  | (i, op) :: rest, m =>
    match familyOf op with
    | none => dedupScan rest m
    | some f =>
      match assocFind m f with
      | none => dedupScan rest (assocSet m f (i, op))
      | some ex =>
        if revisionOf op > revisionOf ex.2 then dedupScan rest (assocSet m f (i, op))
        else dedupScan rest m

/-- The second loop of deduplicateByFamily: an entry with a family survives
iff it is the recorded winner of its family; an entry without a family
survives iff it is not deprecated. -/
def survivesDedup (fmap : List (String × (Nat × ParsedOperation)))
    (p : Nat × ParsedOperation) : Bool :=
  match familyOf p.2 with
  | some f =>
    match assocFind fmap f with
    | some w => w.1 == p.1
    | none => false
  | none => !p.2.deprecated

/-- deduplicateByFamily from openApiParser.ts. -/
def deduplicateByFamily (ops : List ParsedOperation) : List ParsedOperation :=
  let eops := ops.enum
  let fmap := dedupScan eops []
  (eops.filter (survivesDedup fmap)).map Prod.snd

/-- JS String.includes on character lists: the needle occurs as a
contiguous substring of the haystack. -/
def hasSubstring : List Char → List Char → Bool
  | hay, needle =>
    if needle.isPrefixOf hay then true
    else
      match hay with
      | [] => false
      | _ :: rest => hasSubstring rest needle

/-- The filter step of filterOperations: drop internal operations, trigger
operations, and paths containing the literal substring "$subscriptions". -/
def keepOperation (op : ParsedOperation) : Bool :=
  !(op.visibility == "internal") && !op.isTrigger
    && !(hasSubstring op.path.data "$subscriptions".data)

/-- filterOperations from openApiParser.ts. -/
def filterOperations (ops : List ParsedOperation) : List ParsedOperation :=
  deduplicateByFamily (ops.filter keepOperation)

theorem enumFrom_map_snd {α : Type u} : ∀ (n : Nat) (l : List α),
    (l.enumFrom n).map Prod.snd = l
  | _, [] => rfl
  | n, x :: xs => by
    simp only [List.enumFrom, List.map_cons]
    rw [enumFrom_map_snd (n + 1) xs]

theorem enum_map_snd {α : Type u} (l : List α) : l.enum.map Prod.snd = l := by
  simp [List.enum, enumFrom_map_snd 0 l]

theorem le_fst_of_mem_enumFrom {α : Type u} : ∀ (n : Nat) (l : List α) (p : Nat × α),
    p ∈ l.enumFrom n → n ≤ p.1
  | n, [], p => by simp [List.enumFrom]
  | n, x :: xs, p => by
    intro h
    simp only [List.enumFrom, List.mem_cons] at h
    rcases h with h | h
    · simp [h]
    · exact Nat.le_of_succ_le (le_fst_of_mem_enumFrom (n + 1) xs p h)

theorem pairwise_fst_lt_enumFrom {α : Type u} : ∀ (n : Nat) (l : List α),
    (l.enumFrom n).Pairwise (fun a b => a.1 < b.1)
  | _, [] => by simp [List.enumFrom]
  | n, x :: xs => by
    simp only [List.enumFrom]
    refine List.Pairwise.cons ?_ (pairwise_fst_lt_enumFrom (n + 1) xs)
    intro p hp
    have := le_fst_of_mem_enumFrom (n + 1) xs p hp
    omega

theorem pairwise_fst_lt_enum {α : Type u} (l : List α) :
    l.enum.Pairwise (fun a b => a.1 < b.1) := by
  simpa [List.enum] using pairwise_fst_lt_enumFrom 0 l

/-- One step of the family-map scan, viewed along a single family: keep the
candidate with the strictly larger revision, else the incumbent. -/
def dedupPick (acc : Option (Nat × ParsedOperation)) (p : Nat × ParsedOperation) :
    Option (Nat × ParsedOperation) :=
  match acc with
  | none => some p
  | some q => if revisionOf p.2 > revisionOf q.2 then some p else acc

theorem dedupScan_find (f : String) : ∀ (l : List (Nat × ParsedOperation))
    (m : List (String × (Nat × ParsedOperation))),
    assocFind (dedupScan l m) f =
      (l.filter (fun p => familyOf p.2 == some f)).foldl dedupPick (assocFind m f)
  | [], m => rfl
  | (i, op) :: rest, m => by
    cases hfam : familyOf op with
    | none =>
      have hfilter : (((i, op) :: rest).filter (fun p => familyOf p.2 == some f))
          = rest.filter (fun p => familyOf p.2 == some f) := by
        simp [List.filter, hfam]
      rw [hfilter]
      simp only [dedupScan, hfam]
      exact dedupScan_find f rest m
    | some g =>
      by_cases hg : g = f
      · subst hg
        have hfilter : (((i, op) :: rest).filter (fun p => familyOf p.2 == some g))
            = (i, op) :: rest.filter (fun p => familyOf p.2 == some g) := by
          simp [List.filter, hfam]
        rw [hfilter, List.foldl_cons]
        cases hfind : assocFind m g with
        | none =>
          simp only [dedupScan, hfam, hfind]
          rw [dedupScan_find g rest (assocSet m g (i, op))]
          simp only [hfind, assocFind_assocSet_self, dedupPick]
        | some ex =>
          by_cases hrev : revisionOf op > revisionOf ex.2
          · simp only [dedupScan, hfam, hfind, if_pos hrev]
            rw [dedupScan_find g rest (assocSet m g (i, op))]
            simp only [hfind, assocFind_assocSet_self, dedupPick, if_pos hrev]
          · simp only [dedupScan, hfam, hfind, if_neg hrev]
            rw [dedupScan_find g rest m]
            simp only [hfind, dedupPick, if_neg hrev]
      · have hbeq : (g == f) = false := by
          simp [hg]
        have hfilter : (((i, op) :: rest).filter (fun p => familyOf p.2 == some f))
            = rest.filter (fun p => familyOf p.2 == some f) := by
          simp [List.filter, hfam, hbeq]
        rw [hfilter]
        cases hfind : assocFind m g with
        | none =>
          simp only [dedupScan, hfam, hfind]
          rw [dedupScan_find f rest (assocSet m g (i, op))]
          rw [assocFind_assocSet_ne m g f (i, op) hg]
        | some ex =>
          by_cases hrev : revisionOf op > revisionOf ex.2
          · simp only [dedupScan, hfam, hfind, if_pos hrev]
            rw [dedupScan_find f rest (assocSet m g (i, op))]
            rw [assocFind_assocSet_ne m g f (i, op) hg]
          · simp only [dedupScan, hfam, hfind, if_neg hrev]
            exact dedupScan_find f rest m

theorem foldl_dedupPick_go : ∀ (fl : List (Nat × ParsedOperation)) (q : Nat × ParsedOperation),
    (∀ p ∈ fl, q.1 < p.1) → fl.Pairwise (fun a b => a.1 < b.1) →
    ∃ r, fl.foldl dedupPick (some q) = some r ∧ (r ∈ fl ∨ r = q) ∧
      revisionOf q.2 ≤ revisionOf r.2 ∧
      (∀ p ∈ fl, revisionOf p.2 ≤ revisionOf r.2) ∧
      (∀ p ∈ fl, p.1 < r.1 → revisionOf p.2 < revisionOf r.2) ∧
      (q.1 < r.1 → revisionOf q.2 < revisionOf r.2)
  | [], q => by
    intro _ _
    exact ⟨q, rfl, Or.inr rfl, le_refl _, by simp, by simp,
      fun h => absurd h (lt_irrefl q.1)⟩
  | p :: fl, q => by
    intro hlt hpw
    obtain ⟨hself, htail⟩ := List.pairwise_cons.mp hpw
    by_cases hrev : revisionOf p.2 > revisionOf q.2
    · obtain ⟨r, hfold, hmem, hqr, hall, hfirst, hqfirst⟩ :=
        foldl_dedupPick_go fl p hself htail
      refine ⟨r, ?_, ?_, ?_, ?_, ?_, ?_⟩
      · rw [List.foldl_cons]
        simpa [dedupPick, if_pos hrev] using hfold
      · rcases hmem with h | h
        · exact Or.inl (List.mem_cons_of_mem _ h)
        · exact Or.inl (by simp [h])
      · exact le_of_lt (lt_of_lt_of_le hrev hqr)
      · intro x hx
        rcases List.mem_cons.mp hx with h | h
        · rw [h]; exact hqr
        · exact hall x h
      · intro x hx hxr
        rcases List.mem_cons.mp hx with h | h
        · rw [h] at hxr ⊢
          exact hqfirst hxr
        · exact hfirst x h hxr
      · intro _
        exact lt_of_lt_of_le hrev hqr
    · obtain ⟨r, hfold, hmem, hqr, hall, hfirst, hqfirst⟩ :=
        foldl_dedupPick_go fl q
          (fun x hx => hlt x (List.mem_cons_of_mem _ hx)) htail
      have hpq : revisionOf p.2 ≤ revisionOf q.2 := not_lt.mp hrev
      refine ⟨r, ?_, ?_, hqr, ?_, ?_, hqfirst⟩
      · rw [List.foldl_cons]
        simpa [dedupPick, if_neg hrev] using hfold
      · rcases hmem with h | h
        · exact Or.inl (List.mem_cons_of_mem _ h)
        · exact Or.inr h
      · intro x hx
        rcases List.mem_cons.mp hx with h | h
        · rw [h]; exact le_trans hpq hqr
        · exact hall x h
      · intro x hx hxr
        rcases List.mem_cons.mp hx with h | h
        · rcases hmem with hm | hm
          · have hqr1 : q.1 < r.1 := hlt r (List.mem_cons_of_mem _ hm)
            have := hqfirst hqr1
            rw [h]
            exact lt_of_le_of_lt hpq this
          · rw [hm] at hxr
            rw [h] at hxr
            exact absurd hxr (not_lt.mpr (le_of_lt (hlt p (List.mem_cons_self _ _))))
        · exact hfirst x h hxr

theorem foldl_dedupPick_spec (fl : List (Nat × ParsedOperation))
    (hpw : fl.Pairwise (fun a b => a.1 < b.1)) (hne : fl ≠ []) :
    ∃ r, fl.foldl dedupPick none = some r ∧ r ∈ fl ∧
      (∀ p ∈ fl, revisionOf p.2 ≤ revisionOf r.2) ∧
      (∀ p ∈ fl, p.1 < r.1 → revisionOf p.2 < revisionOf r.2) := by
  cases fl with
  | nil => exact absurd rfl hne
  | cons p fl =>
    obtain ⟨hself, htail⟩ := List.pairwise_cons.mp hpw
    obtain ⟨r, hfold, hmem, hqr, hall, hfirst, hqfirst⟩ :=
      foldl_dedupPick_go fl p hself htail
    refine ⟨r, ?_, ?_, ?_, ?_⟩
    · rw [List.foldl_cons]
      exact hfold
    · rcases hmem with h | h
      · exact List.mem_cons_of_mem _ h
      · simp [h]
    · intro x hx
      rcases List.mem_cons.mp hx with h | h
      · rw [h]; exact hqr
      · exact hall x h
    · intro x hx hxr
      rcases List.mem_cons.mp hx with h | h
      · rw [h] at hxr ⊢
        exact hqfirst hxr
      · exact hfirst x h hxr

theorem mem_enum_iff_get {α : Type u} {l : List α} {i : Nat} {a : α} :
    (i, a) ∈ l.enum ↔ l.get? i = some a := by
  rw [List.mk_mem_enum_iff_get?]

/-- C2 — deduplicateByFamily retains, for every family present among the
operations carrying one, exactly one member: the one with the maximal
revision, the first seen on ties; operations without a family survive iff
not deprecated; survivors keep their input order (the output is a sublist
of the input); and filterOperations is this deduplication applied to the
visibility, trigger and subscription filter of its input. -/
theorem c2_family_dedup (ops : List ParsedOperation) :
    List.Sublist (deduplicateByFamily ops) ops
    ∧ (∀ f : String, (∃ op ∈ ops, familyOf op = some f) →
        (deduplicateByFamily ops).countP (fun op => familyOf op == some f) = 1)
    ∧ (∀ op ∈ deduplicateByFamily ops, ∀ f, familyOf op = some f →
        (∀ op2 ∈ ops, familyOf op2 = some f → revisionOf op2 ≤ revisionOf op)
        ∧ ∃ i, ops.get? i = some op ∧
            ∀ j op2, j < i → ops.get? j = some op2 → familyOf op2 = some f →
              revisionOf op2 < revisionOf op)
    ∧ (∀ op ∈ ops, familyOf op = none →
        (op ∈ deduplicateByFamily ops ↔ op.deprecated = false))
    ∧ filterOperations ops = deduplicateByFamily (ops.filter keepOperation) := by
  have hpw : ops.enum.Pairwise (fun a b => a.1 < b.1) := pairwise_fst_lt_enum ops
  have hFL : ∀ f : String,
      (ops.enum.filter (fun p => familyOf p.2 == some f)).Pairwise (fun a b => a.1 < b.1) :=
    fun _ => hpw.sublist (List.filter_sublist _)
  have hwinner : ∀ f : String, assocFind (dedupScan ops.enum []) f =
      (ops.enum.filter (fun p => familyOf p.2 == some f)).foldl dedupPick none :=
    fun f => dedupScan_find f ops.enum []
  have hout : deduplicateByFamily ops =
      (ops.enum.filter (survivesDedup (dedupScan ops.enum []))).map Prod.snd := rfl
  refine ⟨?_, ?_, ?_, ?_, rfl⟩
  · rw [hout]
    have h := (List.filter_sublist (l := ops.enum)
      (p := survivesDedup (dedupScan ops.enum []))).map Prod.snd
    rw [enum_map_snd] at h
    exact h
  · rintro f ⟨op0, hop0, hfam0⟩
    obtain ⟨i0, hget0⟩ := List.mem_iff_get?.mp hop0
    have hin0 : (i0, op0) ∈ ops.enum := mem_enum_iff_get.mpr hget0
    have hinFL : (i0, op0) ∈ ops.enum.filter (fun p => familyOf p.2 == some f) :=
      List.mem_filter.mpr ⟨hin0, by simp [hfam0]⟩
    have hFLne : ops.enum.filter (fun p => familyOf p.2 == some f) ≠ [] :=
      List.ne_nil_of_mem hinFL
    obtain ⟨r, hrfold, hrmem, hrmax, hrfirst⟩ := foldl_dedupPick_spec _ (hFL f) hFLne
    have hrfind : assocFind (dedupScan ops.enum []) f = some r := by
      rw [hwinner f, hrfold]
    obtain ⟨hr_enum, hr_famb⟩ := List.mem_filter.mp hrmem
    have hr_fam : familyOf r.2 = some f := by simpa using hr_famb
    rw [hout, List.countP_map, List.countP_filter]
    have hle : ops.enum.countP
        (fun p => ((fun op => familyOf op == some f) ∘ Prod.snd) p && survivesDedup (dedupScan ops.enum []) p) ≤
        ops.enum.countP (fun p => p.1 == r.1) := by
      apply List.countP_mono_left
      intro p _ hpred
      simp only [Function.comp, Bool.and_eq_true, beq_iff_eq] at hpred
      obtain ⟨hpf, hps⟩ := hpred
      simp only [survivesDedup, hpf, hrfind, beq_iff_eq] at hps
      simp [hps]
    have hcount : ops.enum.countP (fun p => p.1 == r.1) =
        (ops.enum.map Prod.fst).count r.1 := by
      show _ = (ops.enum.map Prod.fst).countP (fun x => x == r.1)
      rw [List.countP_map]
      rfl
    have hnodup : (ops.enum.map Prod.fst).Nodup := List.nodup_enum_map_fst ops
    have hle1 : ops.enum.countP (fun p => p.1 == r.1) ≤ 1 := by
      rw [hcount]
      exact List.nodup_iff_count_le_one.mp hnodup r.1
    have hge : 0 < ops.enum.countP
        (fun p => ((fun op => familyOf op == some f) ∘ Prod.snd) p && survivesDedup (dedupScan ops.enum []) p) := by
      refine List.countP_pos_iff.mpr ⟨r, hr_enum, ?_⟩
      simp only [Function.comp, Bool.and_eq_true, beq_iff_eq]
      refine ⟨hr_fam, ?_⟩
      simp [survivesDedup, hr_fam, hrfind]
    omega
  · intro op hop f hfam
    rw [hout] at hop
    obtain ⟨p, hpfil, hpsnd⟩ := List.mem_map.mp hop
    obtain ⟨hp_enum, hp_surv⟩ := List.mem_filter.mp hpfil
    have hfam_p : familyOf p.2 = some f := by rw [hpsnd]; exact hfam
    simp only [survivesDedup, hfam_p] at hp_surv
    cases hfind2 : assocFind (dedupScan ops.enum []) f with
    | none => rw [hfind2] at hp_surv; simp at hp_surv
    | some w =>
      rw [hfind2] at hp_surv
      have hw1 : w.1 = p.1 := by simpa using hp_surv
      have hFLne : ops.enum.filter (fun p => familyOf p.2 == some f) ≠ [] := by
        intro habs
        rw [hwinner f, habs] at hfind2
        simp at hfind2
      obtain ⟨r, hrfold, hrmem, hrmax, hrfirst⟩ := foldl_dedupPick_spec _ (hFL f) hFLne
      have hrw : w = r := by
        have h := hwinner f
        rw [hrfold, hfind2] at h
        injection h
      subst hrw
      obtain ⟨hr_enum, _⟩ := List.mem_filter.mp hrmem
      have hget_p : ops.get? p.1 = some p.2 := mem_enum_iff_get.mp hp_enum
      have hget_r : ops.get? w.1 = some w.2 := mem_enum_iff_get.mp hr_enum
      have hp_eq_r : p.2 = w.2 := by
        rw [hw1] at hget_r
        rw [hget_p] at hget_r
        exact Option.some.inj hget_r
      have hop_eq : op = w.2 := by rw [← hpsnd, hp_eq_r]
      constructor
      · intro op2 hop2 hfam2
        obtain ⟨j, hj⟩ := List.mem_iff_get?.mp hop2
        have hin2 : (j, op2) ∈ ops.enum.filter (fun p => familyOf p.2 == some f) :=
          List.mem_filter.mpr ⟨mem_enum_iff_get.mpr hj, by simp [hfam2]⟩
        have := hrmax (j, op2) hin2
        rw [hop_eq]
        exact this
      · refine ⟨p.1, by rw [hget_p, hpsnd], ?_⟩
        intro j op2 hji hget2 hfam2
        have hin2 : (j, op2) ∈ ops.enum.filter (fun p => familyOf p.2 == some f) :=
          List.mem_filter.mpr ⟨mem_enum_iff_get.mpr hget2, by simp [hfam2]⟩
        have := hrfirst (j, op2) hin2 (by rw [hw1]; exact hji)
        rw [hop_eq]
        exact this
  · intro op hop hfam
    constructor
    · intro hmem
      rw [hout] at hmem
      obtain ⟨p, hpfil, hpsnd⟩ := List.mem_map.mp hmem
      obtain ⟨hp_enum, hp_surv⟩ := List.mem_filter.mp hpfil
      have hfam_p : familyOf p.2 = none := by rw [hpsnd]; exact hfam
      simp only [survivesDedup, hfam_p, Bool.not_eq_true'] at hp_surv
      rw [← hpsnd]
      exact hp_surv
    · intro hdep
      obtain ⟨i, hi⟩ := List.mem_iff_get?.mp hop
      have hsurv : survivesDedup (dedupScan ops.enum []) (i, op) = true := by
        simp [survivesDedup, hfam, hdep]
      rw [hout]
      exact List.mem_map.mpr ⟨(i, op),
        List.mem_filter.mpr ⟨mem_enum_iff_get.mpr hi, hsurv⟩, rfl⟩

/-- Deprecated revision 1 of the DeleteMessage family. -/
def opDeleteV1 : ParsedOperation :=
  { operationId := "DeleteMessage", method := "delete",
    path := "/\x7bconnectionId\x7d/mail", summary := "", description := "",
    deprecated := true, visibility := "none", isTrigger := false,
    apiAnnotation := some { family := "DeleteMessage", revision := 1, status := "Production" },
    parameters := [], requestBody := none }

/-- Revision 2 of the DeleteMessage family. -/
def opDeleteV2 : ParsedOperation :=
  { opDeleteV1 with
    operationId := "DeleteMessageV2"
    deprecated := false
    apiAnnotation := some { family := "DeleteMessage", revision := 2, status := "Production" } }

/-- A deprecated operation without a family. -/
def opPing : ParsedOperation :=
  { opDeleteV1 with
    operationId := "Ping"
    apiAnnotation := none
    deprecated := true }

theorem c2_family_dedup_witness :
    ((deduplicateByFamily [opDeleteV1, opDeleteV2, opPing]).countP
        (fun op => familyOf op == some "DeleteMessage") = 1)
    ∧ (opPing ∈ deduplicateByFamily [opDeleteV1, opDeleteV2, opPing] ↔
        opPing.deprecated = false) := by
  refine ⟨(c2_family_dedup [opDeleteV1, opDeleteV2, opPing]).2.1 "DeleteMessage"
      ⟨opDeleteV1, by decide, by decide⟩,
    (c2_family_dedup [opDeleteV1, opDeleteV2, opPing]).2.2.2.1 opPing (by decide) (by decide)⟩

/-! ## JSON values.
The decoded bodies that armRequest returns, the cached documents, and the
validated tool parameters are JS values produced by JSON parsing; they are
modelled by a standard JSON value type.  JS object field order is the
association list order. -/

inductive JsonValue where
  | null
  | bool (b : Bool)
  | num (n : Int)
  | str (s : String)
  | arr (items : List JsonValue)
  | obj (fields : List (String × JsonValue))
deriving Repr

/-- JS truthiness of a JSON value (null, false, 0 and the empty string are
falsy; every array and object is truthy). -/
def truthy : JsonValue → Bool
  | .null => false
  | .bool b => b
  | .num n => !(n == 0)
  | .str s => !(s == "")
  | .arr _ => true
  | .obj _ => true

/-! JS String(v) on the JSON values that reach query and path parameters.
String(array) calls Array.prototype.toString, which is join(",") over the
recursively converted elements, a null element contributing the empty
string; a plain object gives "[object Object]". -/

mutual

/-- JS String(v). -/
def jsToString : JsonValue → String
  | .null => "null"
  | .bool b => if b then "true" else "false"
  | .num n => toString n
  | .str s => s
  | .arr xs => jsArrJoin xs
  | .obj _ => "[object Object]"

/-- One element of Array.prototype.join: null converts to the empty
string, every other value through String(v). -/
def jsArrElem : JsonValue → String
  | .null => ""
  | .bool b => if b then "true" else "false"
  | .num n => toString n
  | .str s => s
  | .arr xs => jsArrJoin xs
  | .obj _ => "[object Object]"

/-- Array.prototype.join with the default comma separator. -/
def jsArrJoin : List JsonValue → String
  | [] => ""
  | [x] => jsArrElem x
  | x :: y :: rest => jsArrElem x ++ "," ++ jsArrJoin (y :: rest)

end

/-! ## Schema fetching (dynamicTools.ts, fetchApiSchema).
The ARM transport is an oracle mapping the api name to the outcome of the
managed-API GET.  The function consults the process-wide schema cache
first; on a miss it performs the fetch, stores the result under the api
name whenever the result is truthy, and returns the result as is (the
source binds the whole decoded ARM response - its swagger constant is
result with null for undefined - and never projects an embedded document
out of it). -/

inductive FetchOutcome where
  | ok (body : JsonValue)
  | throwErr (msg : String)

abbrev SchemaCache := List (String × JsonValue)

/-- fetchApiSchema from dynamicTools.ts.  Returns the value handed back to
the caller, the updated cache, and the number of ARM fetches performed. -/
def fetchApiSchema (apiName : String) (cache : SchemaCache)
    (oracle : String → FetchOutcome) :
    Except String (JsonValue × SchemaCache × Nat) :=
  match assocFind cache apiName with
  | some v => .ok (v, cache, 0)
  | none =>
    match oracle apiName with
    | .throwErr msg => .error msg
    | .ok result =>
      let swagger := result
      if truthy swagger then .ok (swagger, assocSet cache apiName swagger, 1)
      else .ok (swagger, cache, 1)

/-- A successful ARM managed-API response carrying no embedded Swagger
document: the resource envelope only lists an api definition URL. -/
def envelopeNoSwagger : JsonValue :=
  .obj [("properties", .obj [("apiDefinitionUrl", .str "https://example.test/defs")])]

/-- C1 (counterexample) — on a successful fetch whose response lacks an
embedded Swagger document, fetchApiSchema does not return null and does
not leave the cache empty: it returns the whole envelope and caches it
under the api name, refuting the claim that such a response yields null
and caches nothing. -/
theorem c1_counterexample :
    fetchApiSchema "office365" [] (fun _ => .ok envelopeNoSwagger)
      = .ok (envelopeNoSwagger, [("office365", envelopeNoSwagger)], 1)
    ∧ envelopeNoSwagger ≠ JsonValue.null := by
  constructor
  · rfl
  · intro h
    cases h

/-- C1 (amended) — on a cache miss fetchApiSchema performs one fetch and
returns the entire decoded ARM response as is: a truthy response (any
object, embedded Swagger or not) is cached under the api name, a falsy
response (null in particular) is returned uncached; on a cache hit the
cached value is returned with no fetch. -/
theorem c1_fetchApiSchema_caches_whole_response (apiName : String) (cache : SchemaCache)
    (oracle : String → FetchOutcome) :
    (∀ result, assocFind cache apiName = none → oracle apiName = .ok result →
      fetchApiSchema apiName cache oracle =
        .ok (result, if truthy result then assocSet cache apiName result else cache, 1))
    ∧ (∀ v, assocFind cache apiName = some v →
      fetchApiSchema apiName cache oracle = .ok (v, cache, 0)) := by
  constructor
  · intro result hmiss hok
    simp only [fetchApiSchema, hmiss, hok]
    by_cases ht : truthy result = true
    · simp [ht]
    · have ht2 : truthy result = false := by
        cases h2 : truthy result
        · rfl
        · exact absurd h2 ht
      simp [ht2]
  · intro v hhit
    simp [fetchApiSchema, hhit]

theorem c1_fetchApiSchema_witness :
    fetchApiSchema "office365" [] (fun _ => .ok envelopeNoSwagger)
      = .ok (envelopeNoSwagger, assocSet [] "office365" envelopeNoSwagger, 1) := by
  have h := (c1_fetchApiSchema_caches_whole_response "office365" []
    (fun _ => .ok envelopeNoSwagger)).1 envelopeNoSwagger rfl rfl
  simpa using h

/-! ## Invocation translation (dynamicTools.ts, invokeDynamicTool).
The envelope-building part of invokeDynamicTool is embedded as a pure
function of the operation and the validated parameter map.  The host JSON
parser used for the try/catch around JSON.parse of string-typed object
properties is supplied as an oracle returning none on a parse failure. -/

/-- JS String.prototype.startsWith. -/
def strStartsWith (s pfx : String) : Bool :=
  pfx.data.isPrefixOf s.data

/-- JS String.prototype.replace with a plain string pattern, on character
lists: only the first occurrence is replaced. -/
def replaceFirstList (pat repl : List Char) : List Char → List Char
  | [] => if pat.isPrefixOf [] then repl ++ ([] : List Char).drop pat.length else []
  | c :: rest =>
    if pat.isPrefixOf (c :: rest) then repl ++ (c :: rest).drop pat.length
    else c :: replaceFirstList pat repl rest

/-- JS String.prototype.replace with a plain string pattern. -/
def replaceFirst (s pat repl : String) : String :=
  String.mk (replaceFirstList pat.data repl.data s.data)

/-- The anchored replacement of the leading literal segment of the
operation path in invokeDynamicTool: strip one leading /{connectionId}. -/
def stripConnectionIdOnce (path : String) : String :=
  if strStartsWith path "/\x7bconnectionId\x7d" then
    String.mk (path.data.drop ("/\x7bconnectionId\x7d" : String).data.length)
  else path

abbrev ParamMap := List (String × JsonValue)

/-- The parameter loop of invokeDynamicTool: walk the declared parameters
in order, skip connectionId, look each value up under the sanitized name,
substitute path parameters into the invocation path and collect query
parameters under their original names. -/
def processParams (params : ParamMap) :
    List ParsedParameter → String × List (String × String) → String × List (String × String)
  | [], st => st
  | p :: rest, (invokePath, queries) =>
    if p.name = "connectionId" then processParams params rest (invokePath, queries)
    else
      match assocFind params (sanitizeKey p.name) with
      | none => processParams params rest (invokePath, queries)
      | some v =>
        match p.paramIn with
        | ParamLoc.path => processParams params rest
            (replaceFirst invokePath ("\x7b" ++ p.name ++ "\x7d") (jsToString v), queries)
        | ParamLoc.query => processParams params rest
            (invokePath, assocSet queries p.name (jsToString v))
        | ParamLoc.header => processParams params rest (invokePath, queries)

/-- JS nullish coalescing a ?? b on optional JSON values: a missing or
null left operand falls through to the right operand. -/
def nullishCoalesce (a b : Option JsonValue) : Option JsonValue :=
  match a with
  | some JsonValue.null => b
  | none => b
  | some v => some v

/-- The value stored for a body property: string values of object-typed or
string-(JSON)-typed properties are JSON-parsed when possible, everything
else is stored as supplied. -/
def decodeBodyValue (parseJson : String → Option JsonValue) (propType : String)
    (v : JsonValue) : JsonValue :=
  if propType == "object" || propType == "string (JSON)" then
    match v with
    | JsonValue.str s =>
      match parseJson s with
      | some j => j
      | none => JsonValue.str s
    | _ => v
  else v

/-- The value the source reads for a body property: the parameter map at
the sanitized name, nullish-coalesced with the body_ fallback key. -/
def suppliedBodyValue (params : ParamMap) (name : String) : Option JsonValue :=
  nullishCoalesce (assocFind params (sanitizeKey name))
    (assocFind params ("body_" ++ sanitizeKey name))

/-- One iteration of the body loop of invokeDynamicTool: skip properties
without a supplied value, store supplied values under the original
property name. -/
def bodyStep (parseJson : String → Option JsonValue) (params : ParamMap)
    (body : List (String × JsonValue)) (nameProp : String × ParsedBodyProperty) :
    List (String × JsonValue) :=
  match suppliedBodyValue params nameProp.1 with
  | none => body
  | some v => assocSet body nameProp.1 (decodeBodyValue parseJson nameProp.2.type v)

/-- The body loop of invokeDynamicTool: walk the declared body properties
in order, read the value under the sanitized name with a body_ fallback,
and store the supplied values under the original property names. -/
def buildBody (parseJson : String → Option JsonValue) (params : ParamMap)
    (rb : ParsedRequestBody) : List (String × JsonValue) :=
  rb.properties.foldl (bodyStep parseJson params) []

/-- The dynamicInvoke request envelope. -/
structure InvokeRequest where
  method : String
  path : String
  headers : Option (List (String × String))
  body : Option (List (String × JsonValue))
  queries : Option (List (String × String))
deriving Repr

/-- JS String.prototype.toUpperCase on ASCII method names. -/
def strToUpper (s : String) : String :=
  String.mk (s.data.map Char.toUpper)

/-- The envelope built by invokeDynamicTool before the dynamicInvoke POST:
uppercased method, stripped and substituted path, queries when nonempty,
and the JSON content type header together with the body exactly when a
request body is declared and at least one property value was supplied. -/
def buildInvokeRequest (parseJson : String → Option JsonValue)
    (op : ParsedOperation) (params : ParamMap) : InvokeRequest :=
  let path0 := stripConnectionIdOnce op.path
  let st := processParams params op.parameters (path0, [])
  let body? := op.requestBody.map (buildBody parseJson params)
  let hasBody := match body? with
    | some b => !b.isEmpty
    | none => false
  { method := strToUpper op.method
    path := st.1
    headers := if hasBody then some [("Content-Type", "application/json")] else none
    body := if hasBody then body? else none
    queries := if st.2.isEmpty then none else some st.2 }

/-- The path substitution contributed by one declared parameter: its name
paired with the string form of the value under the sanitized name, when
the parameter is a supplied path parameter other than connectionId. -/
def pathSubstOf (params : ParamMap) (p : ParsedParameter) : Option (String × String) :=
  if p.name ≠ "connectionId" ∧ p.paramIn = ParamLoc.path then
    (assocFind params (sanitizeKey p.name)).map fun v => (p.name, jsToString v)
  else none

/-- Substitute one named value at its placeholder in the invocation path. -/
def applySubst (s : String) (nv : String × String) : String :=
  replaceFirst s ("\x7b" ++ nv.1 ++ "\x7d") nv.2

/-- The query assignment contributed by one declared parameter: supplied
query parameters other than connectionId set the original name to the
string form of the value under the sanitized name. -/
def queryStep (params : ParamMap) (qs : List (String × String))
    (p : ParsedParameter) : List (String × String) :=
  if p.name = "connectionId" then qs
  else
    match p.paramIn, assocFind params (sanitizeKey p.name) with
    | ParamLoc.query, some v => assocSet qs p.name (jsToString v)
    | _, _ => qs

/-- Spec view of the invocation path: op.path with the leading
/{connectionId} segment stripped once and every supplied path parameter
substituted at its placeholder, in declaration order. -/
def specPath (op : ParsedOperation) (params : ParamMap) : String :=
  (op.parameters.filterMap (pathSubstOf params)).foldl applySubst
    (stripConnectionIdOnce op.path)

/-- Spec view of the queries map: original parameter names as keys, values
looked up under the sanitized names. -/
def specQueries (op : ParsedOperation) (params : ParamMap) :
    List (String × String) :=
  op.parameters.foldl (queryStep params) []

theorem processParams_decomp (params : ParamMap) :
    ∀ (pars : List ParsedParameter) (path : String) (qs : List (String × String)),
    processParams params pars (path, qs) =
      ((pars.filterMap (pathSubstOf params)).foldl applySubst path,
       pars.foldl (queryStep params) qs)
  | [], path, qs => rfl
  | p :: rest, path, qs => by
    by_cases hname : p.name = "connectionId"
    · have hf : pathSubstOf params p = none := by
        simp [pathSubstOf, hname]
      have hq : queryStep params qs p = qs := by
        simp [queryStep, hname]
      simp only [List.filterMap_cons, hf, List.foldl_cons, hq]
      simp only [processParams, if_pos hname]
      exact processParams_decomp params rest path qs
    · cases hfind : assocFind params (sanitizeKey p.name) with
      | none =>
        have hf : pathSubstOf params p = none := by
          simp [pathSubstOf, hfind]
        have hq : queryStep params qs p = qs := by
          cases hloc : p.paramIn <;> simp [queryStep, hname, hfind, hloc]
        simp only [List.filterMap_cons, hf, List.foldl_cons, hq]
        simp only [processParams, if_neg hname, hfind]
        exact processParams_decomp params rest path qs
      | some v =>
        cases hloc : p.paramIn with
        | path =>
          have hf : pathSubstOf params p = some (p.name, jsToString v) := by
            simp [pathSubstOf, hname, hfind, hloc]
          have hq : queryStep params qs p = qs := by
            simp [queryStep, hname, hfind, hloc]
          simp only [List.filterMap_cons, hf, List.foldl_cons, hq]
          simp only [processParams, if_neg hname, hfind, hloc]
          exact processParams_decomp params rest _ qs
        | query =>
          have hf : pathSubstOf params p = none := by
            simp [pathSubstOf, hname, hfind, hloc]
          have hq : queryStep params qs p = assocSet qs p.name (jsToString v) := by
            simp [queryStep, hname, hfind, hloc]
          simp only [List.filterMap_cons, hf, List.foldl_cons, hq]
          simp only [processParams, if_neg hname, hfind, hloc]
          exact processParams_decomp params rest path _
        | header =>
          have hf : pathSubstOf params p = none := by
            simp [pathSubstOf, hname, hfind, hloc]
          have hq : queryStep params qs p = qs := by
            simp [queryStep, hname, hfind, hloc]
          simp only [List.filterMap_cons, hf, List.foldl_cons, hq]
          simp only [processParams, if_neg hname, hfind, hloc]
          exact processParams_decomp params rest path qs

theorem mem_foldl_queryStep (params : ParamMap) :
    ∀ (pars : List ParsedParameter) (qs : List (String × String)) (kv : String × String),
    kv ∈ pars.foldl (queryStep params) qs →
    (∃ p ∈ pars, p.paramIn = ParamLoc.query ∧ p.name ≠ "connectionId" ∧ kv.1 = p.name ∧
      ∃ v, assocFind params (sanitizeKey p.name) = some v ∧ kv.2 = jsToString v)
    ∨ kv ∈ qs
  | [], qs, kv => fun h => Or.inr h
  | p :: rest, qs, kv => by
    intro h
    rw [List.foldl_cons] at h
    rcases mem_foldl_queryStep params rest (queryStep params qs p) kv h with hsrc | hacc
    · obtain ⟨p2, hp2, hrest⟩ := hsrc
      exact Or.inl ⟨p2, List.mem_cons_of_mem _ hp2, hrest⟩
    · by_cases hname : p.name = "connectionId"
      · rw [queryStep, if_pos hname] at hacc
        exact Or.inr hacc
      · cases hloc : p.paramIn with
        | query =>
          cases hfind : assocFind params (sanitizeKey p.name) with
          | none =>
            rw [queryStep, if_neg hname, hloc, hfind] at hacc
            exact Or.inr hacc
          | some v =>
            rw [queryStep, if_neg hname, hloc, hfind] at hacc
            rcases mem_assocSet qs p.name (jsToString v) kv hacc with heq | hmem
            · refine Or.inl ⟨p, List.mem_cons_self _ _, hloc, hname, ?_, v, hfind, ?_⟩
              · rw [heq]
              · rw [heq]
            · exact Or.inr hmem
        | path =>
          rw [queryStep, if_neg hname, hloc] at hacc
          cases hfind : assocFind params (sanitizeKey p.name) with
          | none => rw [hfind] at hacc; exact Or.inr hacc
          | some v => rw [hfind] at hacc; exact Or.inr hacc
        | header =>
          rw [queryStep, if_neg hname, hloc] at hacc
          cases hfind : assocFind params (sanitizeKey p.name) with
          | none => rw [hfind] at hacc; exact Or.inr hacc
          | some v => rw [hfind] at hacc; exact Or.inr hacc

theorem assocSet_ne_nil {α : Type u} (l : List (String × α)) (k : String) (v : α) :
    assocSet l k v ≠ [] := by
  cases l with
  | nil => simp [assocSet]
  | cons hd tl =>
    obtain ⟨k1, v1⟩ := hd
    by_cases h : k1 = k <;> simp [assocSet, h]

theorem foldl_bodyStep_eq_nil_iff (parseJson : String → Option JsonValue)
    (params : ParamMap) :
    ∀ (props : List (String × ParsedBodyProperty)) (body : List (String × JsonValue)),
    props.foldl (bodyStep parseJson params) body = [] ↔
      (body = [] ∧ ∀ prop ∈ props, suppliedBodyValue params prop.1 = none)
  | [], body => by simp
  | prop :: props, body => by
    rw [List.foldl_cons, foldl_bodyStep_eq_nil_iff parseJson params props _]
    cases hsup : suppliedBodyValue params prop.1 with
    | none =>
      constructor
      · rintro ⟨hb, hrest⟩
        rw [bodyStep, hsup] at hb
        refine ⟨hb, ?_⟩
        intro x hx
        rcases List.mem_cons.mp hx with h | h
        · rw [h]; exact hsup
        · exact hrest x h
      · rintro ⟨hb, hall⟩
        rw [bodyStep, hsup]
        exact ⟨hb, fun x hx => hall x (List.mem_cons_of_mem _ hx)⟩
    | some v =>
      constructor
      · rintro ⟨hb, _⟩
        rw [bodyStep, hsup] at hb
        exact absurd hb (assocSet_ne_nil _ _ _)
      · rintro ⟨_, hall⟩
        have := hall prop (List.mem_cons_self _ _)
        rw [hsup] at this
        cases this

theorem mem_foldl_bodyStep (parseJson : String → Option JsonValue) (params : ParamMap) :
    ∀ (props : List (String × ParsedBodyProperty)) (body : List (String × JsonValue))
      (kv : String × JsonValue),
    kv ∈ props.foldl (bodyStep parseJson params) body →
    (∃ prop ∈ props, kv.1 = prop.1 ∧
      ∃ v, suppliedBodyValue params prop.1 = some v ∧
        kv.2 = decodeBodyValue parseJson prop.2.type v)
    ∨ kv ∈ body
  | [], body, kv => fun h => Or.inr h
  | prop :: props, body, kv => by
    intro h
    rw [List.foldl_cons] at h
    rcases mem_foldl_bodyStep parseJson params props _ kv h with hsrc | hacc
    · obtain ⟨p2, hp2, hrest⟩ := hsrc
      exact Or.inl ⟨p2, List.mem_cons_of_mem _ hp2, hrest⟩
    · cases hsup : suppliedBodyValue params prop.1 with
      | none =>
        rw [bodyStep, hsup] at hacc
        exact Or.inr hacc
      | some v =>
        rw [bodyStep, hsup] at hacc
        rcases mem_assocSet body prop.1 _ kv hacc with heq | hmem
        · refine Or.inl ⟨prop, List.mem_cons_self _ _, ?_, v, hsup, ?_⟩
          · rw [heq]
          · rw [heq]
        · exact Or.inr hmem

/-- C3 — the dynamicInvoke envelope built by invokeDynamicTool: method is
the uppercased operation method; the path is op.path with the leading
/{connectionId} segment stripped once and every supplied path parameter
substituted at its placeholder with the string form of the value under the
sanitized key; queries carry the original parameter names as keys with
values looked up under sanitized keys, and are present iff nonempty; the
Content-Type header and the body are present iff a request body is
declared and at least one body property value was supplied, with body
entries keyed by the original property names from lookups under sanitized
keys (with the body_ fallback). -/
theorem c3_invoke_envelope (parseJson : String → Option JsonValue)
    (op : ParsedOperation) (params : ParamMap) :
    (buildInvokeRequest parseJson op params).method = strToUpper op.method
    ∧ (buildInvokeRequest parseJson op params).path = specPath op params
    ∧ (buildInvokeRequest parseJson op params).queries =
        (if (specQueries op params).isEmpty then none else some (specQueries op params))
    ∧ (∀ kv ∈ specQueries op params, ∃ p ∈ op.parameters,
        p.paramIn = ParamLoc.query ∧ p.name ≠ "connectionId" ∧ kv.1 = p.name ∧
        ∃ v, assocFind params (sanitizeKey p.name) = some v ∧ kv.2 = jsToString v)
    ∧ ((buildInvokeRequest parseJson op params).body.isSome ↔
        ∃ rb, op.requestBody = some rb ∧
          ∃ prop ∈ rb.properties, (suppliedBodyValue params prop.1).isSome)
    ∧ (buildInvokeRequest parseJson op params).headers =
        (if (buildInvokeRequest parseJson op params).body.isSome then
          some [("Content-Type", "application/json")] else none)
    ∧ (∀ rb, op.requestBody = some rb → ∀ kv ∈ buildBody parseJson params rb,
        ∃ prop ∈ rb.properties, kv.1 = prop.1 ∧
          ∃ v, suppliedBodyValue params prop.1 = some v ∧
            kv.2 = decodeBodyValue parseJson prop.2.type v) := by
  have hdecomp := processParams_decomp params op.parameters
    (stripConnectionIdOnce op.path) []
  refine ⟨rfl, ?_, ?_, ?_, ?_, ?_, ?_⟩
  · show (processParams params op.parameters (stripConnectionIdOnce op.path, [])).1 = _
    rw [hdecomp]
    rfl
  · show (if (processParams params op.parameters
        (stripConnectionIdOnce op.path, [])).2.isEmpty then none
      else some (processParams params op.parameters
        (stripConnectionIdOnce op.path, [])).2) = _
    rw [hdecomp]
    rfl
  · intro kv hkv
    rcases mem_foldl_queryStep params op.parameters [] kv hkv with hsrc | habs
    · exact hsrc
    · cases habs
  · cases hreq : op.requestBody with
    | none =>
      constructor
      · intro h
        simp only [buildInvokeRequest, hreq] at h
        simp at h
      · rintro ⟨rb, habs, -⟩
        cases habs
    | some rb =>
      have hbody : (buildInvokeRequest parseJson op params).body =
          (if !(buildBody parseJson params rb).isEmpty
            then some (buildBody parseJson params rb) else none) := by
        simp only [buildInvokeRequest]
        rw [hreq]
        rfl
      rw [hbody]
      by_cases hemp : (buildBody parseJson params rb).isEmpty
      · rw [if_neg (by simp [hemp])]
        simp only [Option.isSome_none, Bool.false_eq_true, false_iff]
        rintro ⟨rb2, hrb2, prop, hprop, hsup⟩
        injection hrb2 with hrb2
        subst hrb2
        have hnil : buildBody parseJson params rb = [] := by
          simpa [List.isEmpty_iff] using hemp
        have hall := (foldl_bodyStep_eq_nil_iff parseJson params rb.properties []).mp hnil
        have := hall.2 prop hprop
        rw [this] at hsup
        simp at hsup
      · rw [if_pos (by simp [hemp])]
        simp only [Option.isSome_some, true_iff]
        refine ⟨rb, rfl, ?_⟩
        have hnotnil : buildBody parseJson params rb ≠ [] := by
          simpa [List.isEmpty_iff] using hemp
        by_contra hnone
        push_neg at hnone
        apply hnotnil
        refine (foldl_bodyStep_eq_nil_iff parseJson params rb.properties []).mpr ⟨rfl, ?_⟩
        intro prop hprop
        have := hnone prop hprop
        simpa using this
  · cases hreq : op.requestBody with
    | none =>
      simp [buildInvokeRequest, hreq]
    | some rb =>
      by_cases hemp : (buildBody parseJson params rb).isEmpty
      · simp [buildInvokeRequest, hreq, hemp]
      · simp [buildInvokeRequest, hreq, hemp]
  · intro rb _ kv hkv
    rcases mem_foldl_bodyStep parseJson params rb.properties [] kv hkv with hsrc | habs
    · exact hsrc
    · cases habs

/-- The SearchMail operation of scenario S5: a GET with two string query
parameters whose names need sanitization and an array query parameter
(the generated schema admits arrays of strings). -/
def opSearchMail : ParsedOperation :=
  { operationId := "SearchMail", method := "get",
    path := "/\x7bconnectionId\x7d/v2/Mail", summary := "", description := "",
    deprecated := false, visibility := "none", isTrigger := false,
    apiAnnotation := none,
    parameters := [
      { name := "connectionId", paramIn := ParamLoc.path, type := "string",
        required := true, description := "" },
      { name := "$filter", paramIn := ParamLoc.query, type := "string",
        required := false, description := "" },
      { name := "$top", paramIn := ParamLoc.query, type := "string",
        required := false, description := "" },
      { name := "$select", paramIn := ParamLoc.query, type := "array",
        required := false, description := "" }],
    requestBody := none }

/-- The validated S5 input under the sanitized keys; the array-typed
parameter carries a validated array of strings. -/
def searchParams : ParamMap :=
  [("_filter", JsonValue.str "isRead eq false"), ("_top", JsonValue.str "10"),
   ("_select", JsonValue.arr [JsonValue.str "to", JsonValue.str "subject"])]

theorem c3_invoke_envelope_witness :
    (buildInvokeRequest (fun _ => none) opSearchMail searchParams).method = "GET"
    ∧ (buildInvokeRequest (fun _ => none) opSearchMail searchParams).path = "/v2/Mail"
    ∧ (buildInvokeRequest (fun _ => none) opSearchMail searchParams).queries =
        some [("$filter", "isRead eq false"), ("$top", "10"),
          ("$select", "to,subject")]
    ∧ (∃ p ∈ opSearchMail.parameters, p.paramIn = ParamLoc.query ∧
        p.name ≠ "connectionId" ∧ ("$filter" : String) = p.name ∧
        ∃ v, assocFind searchParams (sanitizeKey p.name) = some v ∧
          ("isRead eq false" : String) = jsToString v)
    ∧ (∃ p ∈ opSearchMail.parameters, p.paramIn = ParamLoc.query ∧
        p.name ≠ "connectionId" ∧ ("$select" : String) = p.name ∧
        ∃ v, assocFind searchParams (sanitizeKey p.name) = some v ∧
          ("to,subject" : String) = jsToString v) := by
  have h := c3_invoke_envelope (fun _ => none) opSearchMail searchParams
  refine ⟨?_, ?_, ?_, ?_, ?_⟩
  · rw [h.1]
    decide
  · rw [h.2.1]
    decide
  · rw [h.2.2.1]
    decide
  · exact h.2.2.2.1 ("$filter", "isRead eq false") (by decide)
  · exact h.2.2.2.1 ("$select", "to,subject") (by decide)

/-! ## ARM request pipeline (arm.ts, armRequest).
The HTTP transport is an oracle from the attempt index to the attempt
outcome: a 2xx response with a decoded body, a non-OK response with its
status and the parsed ARM error envelope (none when the error body is not
JSON or lacks a truthy error field; otherwise the optional code and
message fields), or a throw below the HTTP level (transport failure or
timeout).  The loop runs attempts 0 through MAX_RETRIES, retrying on 429,
5xx and transport throws, and shapes every other non-OK response into a
typed ARM error immediately. -/

inductive AttemptOutcome where
  | ok (body : JsonValue)
  | httpError (status : Nat) (envelope : Option (Option String × Option String))
  | throwErr (msg : String)

inductive ArmOutcome where
  | ok (body : JsonValue)
  | armError (code message : String) (statusCode : Nat)
  | transportError (msg : String)

def MAX_RETRIES : Nat := 3

/-- isRetryable from arm.ts: status 429 or any 5xx (the source tests
status greater or equal 500). -/
def isRetryable (status : Nat) : Bool :=
  status == 429 || 500 ≤ status

/-- The ARM error shaping of arm.ts: code and message from the parsed
error envelope when present, otherwise the UnknownError defaults. -/
def shapeArmError (status : Nat)
    (envelope : Option (Option String × Option String)) : ArmOutcome :=
  match envelope with
  | some (c, m) => ArmOutcome.armError (c.getD "UnknownError")
      (m.getD ("ARM request failed with status " ++ toString status)) status
  | none => ArmOutcome.armError "UnknownError"
      ("ARM request failed with status " ++ toString status) status

/-- The retry loop of armRequest: attempt index and remaining retry
budget; returns the outcome and the total number of attempts issued. -/
def armRequestGo (responses : Nat → AttemptOutcome) : Nat → Nat → ArmOutcome × Nat
  | attempt, 0 =>
    (match responses attempt with
    | AttemptOutcome.ok body => (ArmOutcome.ok body, attempt + 1)
    | AttemptOutcome.httpError status env => (shapeArmError status env, attempt + 1)
    | AttemptOutcome.throwErr msg => (ArmOutcome.transportError msg, attempt + 1))
  | attempt, Nat.succ r =>
    match responses attempt with
    | AttemptOutcome.ok body => (ArmOutcome.ok body, attempt + 1)
    | AttemptOutcome.httpError status env =>
      if isRetryable status then armRequestGo responses (attempt + 1) r
      else (shapeArmError status env, attempt + 1)
    | AttemptOutcome.throwErr _ => armRequestGo responses (attempt + 1) r

/-- armRequest from arm.ts, over the transport oracle. -/
def armRequest (responses : Nat → AttemptOutcome) : ArmOutcome × Nat :=
  armRequestGo responses 0 MAX_RETRIES

theorem armRequest_all_retryable (responses : Nat → AttemptOutcome)
    (hall : ∀ i, i ≤ 3 → ∃ status env,
      responses i = AttemptOutcome.httpError status env ∧ isRetryable status = true) :
    ∃ status env, responses 3 = AttemptOutcome.httpError status env ∧
      armRequest responses = (shapeArmError status env, 4) := by
  obtain ⟨s0, e0, hr0, hb0⟩ := hall 0 (by omega)
  obtain ⟨s1, e1, hr1, hb1⟩ := hall 1 (by omega)
  obtain ⟨s2, e2, hr2, hb2⟩ := hall 2 (by omega)
  obtain ⟨s3, e3, hr3, hb3⟩ := hall 3 (by omega)
  refine ⟨s3, e3, hr3, ?_⟩
  show armRequestGo responses 0 3 = (shapeArmError s3 e3, 4)
  rw [show (3 : Nat) = Nat.succ 2 from rfl, armRequestGo, hr0]
  simp only [hb0, if_true]
  norm_num
  rw [show (2 : Nat) = Nat.succ 1 from rfl, armRequestGo, hr1]
  simp only [hb1, if_true]
  norm_num
  rw [show (1 : Nat) = Nat.succ 0 from rfl, armRequestGo, hr2]
  simp only [hb2, if_true]
  norm_num
  rw [armRequestGo, hr3]

theorem armRequestGo_transport (responses : Nat → AttemptOutcome) :
    ∀ (remaining attempt : Nat) (msg : String),
    (armRequestGo responses attempt remaining).1 = ArmOutcome.transportError msg →
    responses (attempt + remaining) = AttemptOutcome.throwErr msg
  | 0, attempt, msg => by
    intro h
    rw [armRequestGo] at h
    cases hr : responses attempt with
    | ok body => rw [hr] at h; cases h
    | httpError status env =>
      rw [hr] at h
      cases env with
      | none => simp [shapeArmError] at h
      | some cm => obtain ⟨c, m⟩ := cm; simp [shapeArmError] at h
    | throwErr m =>
      rw [hr] at h
      simp only at h
      injection h with h2
      rw [Nat.add_zero, hr, h2]
  | Nat.succ r, attempt, msg => by
    intro h
    rw [armRequestGo] at h
    cases hr : responses attempt with
    | ok body => rw [hr] at h; cases h
    | httpError status env =>
      rw [hr] at h
      by_cases hret : isRetryable status = true
      · simp only [hret, if_true] at h
        have := armRequestGo_transport responses r (attempt + 1) msg h
        rw [show attempt + Nat.succ r = attempt + 1 + r by omega]
        exact this
      · simp only [hret, if_false, Bool.false_eq_true] at h
        cases env with
        | none => simp [shapeArmError] at h
        | some cm => obtain ⟨c, m⟩ := cm; simp [shapeArmError] at h
    | throwErr m =>
      rw [hr] at h
      simp only at h
      have := armRequestGo_transport responses r (attempt + 1) msg h
      rw [show attempt + Nat.succ r = attempt + 1 + r by omega]
      exact this

/-- C7 — retry budget: when every attempt yields a retryable status (429
or 5xx, in particular 500 every time), armRequest issues exactly 4
attempts (1 initial + 3 retries) and then raises a shaped ARM error; for a
non-OK 4xx status other than 429 on the first attempt, armRequest raises
the shaped ARM error after exactly 1 attempt, with no retry. -/
theorem c7_retry_budget :
    (∀ responses : Nat → AttemptOutcome,
      (∀ i, i ≤ 3 → ∃ status env,
        responses i = AttemptOutcome.httpError status env ∧ isRetryable status = true) →
      (armRequest responses).2 = 4 ∧
      ∃ code message statusCode,
        (armRequest responses).1 = ArmOutcome.armError code message statusCode)
    ∧ (∀ (responses : Nat → AttemptOutcome) (status : Nat)
        (env : Option (Option String × Option String)),
      responses 0 = AttemptOutcome.httpError status env →
      400 ≤ status → status < 500 → status ≠ 429 →
      armRequest responses = (shapeArmError status env, 1)) := by
  constructor
  · intro responses hall
    obtain ⟨s3, e3, _, hrun⟩ := armRequest_all_retryable responses hall
    rw [hrun]
    refine ⟨rfl, ?_⟩
    cases e3 with
    | none => exact ⟨_, _, _, rfl⟩
    | some cm => obtain ⟨c, m⟩ := cm; exact ⟨_, _, _, rfl⟩
  · intro responses status env hr0 hge hlt hne
    have hret : isRetryable status = false := by
      simp only [isRetryable, Bool.or_eq_false_iff]
      constructor
      · exact beq_eq_false_iff_ne.mpr hne
      · simp only [decide_eq_false_iff_not]
        omega
    show armRequestGo responses 0 3 = _
    rw [show (3 : Nat) = Nat.succ 2 from rfl, armRequestGo, hr0]
    simp [hret]

theorem c7_retry_budget_witness :
    (armRequest (fun _ => AttemptOutcome.httpError 500 none)).2 = 4
    ∧ (∃ code message statusCode,
        (armRequest (fun _ => AttemptOutcome.httpError 500 none)).1 =
          ArmOutcome.armError code message statusCode)
    ∧ armRequest (fun _ => AttemptOutcome.httpError 404 none) =
        (shapeArmError 404 none, 1) := by
  have h1 := c7_retry_budget.1 (fun _ => AttemptOutcome.httpError 500 none)
    (fun i _ => ⟨500, none, rfl, by decide⟩)
  have h2 := c7_retry_budget.2 (fun _ => AttemptOutcome.httpError 404 none)
    404 none rfl (by decide) (by decide) (by decide)
  exact ⟨h1.1, h1.2, h2⟩

/-- C10 — exhausted-retry error type: when every attempt receives a
retryable status (429 or at least 500), armRequest raises an ARM error
whose status code is the status of the final (fourth) response, with code
and message from the parsed ARM error envelope when available and the
UnknownError code with the generic status message otherwise; and a
transport-level error is raised only when the final attempt itself threw
below the HTTP level, with that throw's message. -/
theorem c10_exhausted_retry_error :
    (∀ responses : Nat → AttemptOutcome,
      (∀ i, i ≤ 3 → ∃ status env,
        responses i = AttemptOutcome.httpError status env ∧ isRetryable status = true) →
      ∃ status env, responses 3 = AttemptOutcome.httpError status env ∧
        (armRequest responses).1 = ArmOutcome.armError
          (match env with
            | some (c, _) => c.getD "UnknownError"
            | none => "UnknownError")
          (match env with
            | some (_, m) => m.getD ("ARM request failed with status " ++ toString status)
            | none => "ARM request failed with status " ++ toString status)
          status)
    ∧ (∀ (responses : Nat → AttemptOutcome) (msg : String),
        (armRequest responses).1 = ArmOutcome.transportError msg →
        responses 3 = AttemptOutcome.throwErr msg) := by
  constructor
  · intro responses hall
    obtain ⟨s3, e3, hr3, hrun⟩ := armRequest_all_retryable responses hall
    refine ⟨s3, e3, hr3, ?_⟩
    rw [hrun]
    cases e3 with
    | none => rfl
    | some cm => obtain ⟨c, m⟩ := cm; rfl
  · intro responses msg h
    have := armRequestGo_transport responses 3 0 msg h
    simpa using this

/-- A transport trace answering 503 twice and then 429 with an ARM error
envelope on every later attempt. -/
def respRetryMix : Nat → AttemptOutcome := fun i =>
  if i < 2 then AttemptOutcome.httpError 503 none
  else AttemptOutcome.httpError 429 (some (some "TooManyRequests", some "slow down"))

/-- A transport trace answering 500 three times and then throwing below
the HTTP level. -/
def respTransportLast : Nat → AttemptOutcome := fun i =>
  if i < 3 then AttemptOutcome.httpError 500 none
  else AttemptOutcome.throwErr "socket hang up"

theorem c10_exhausted_retry_error_witness :
    (∃ status env, respRetryMix 3 = AttemptOutcome.httpError status env ∧
      (armRequest respRetryMix).1 = ArmOutcome.armError
        (match env with
          | some (c, _) => c.getD "UnknownError"
          | none => "UnknownError")
        (match env with
          | some (_, m) => m.getD ("ARM request failed with status " ++ toString status)
          | none => "ARM request failed with status " ++ toString status)
        status)
    ∧ respTransportLast 3 = AttemptOutcome.throwErr "socket hang up" := by
  constructor
  · refine c10_exhausted_retry_error.1 respRetryMix ?_
    intro i hi
    by_cases h : i < 2
    · exact ⟨503, none, by simp [respRetryMix, h], by decide⟩
    · exact ⟨429, some (some "TooManyRequests", some "slow down"),
        by simp [respRetryMix, h], by decide⟩
  · exact c10_exhausted_retry_error.2 respTransportLast "socket hang up" (by rfl)

/-! ## Tool registry lifecycle (dynamicTools.ts and metaTools.ts).
The process-wide state is the schema cache and the tool registry.  The
parsing pipeline (parseOpenApiSpec) is supplied as a function from the
fetched document and api name to the parsed operations: the lifecycle
properties hold for every deterministic parser, the real one included.
The connections listing and the managed-API fetch are oracles; change
notifications and ARM fetches are reported in the outcome. -/

structure DynamicToolContext where
  connection : ConnectionInfo
  operation : ParsedOperation
deriving Repr, DecidableEq

abbrev ToolRegistry := List (String × DynamicToolContext)

structure ServerState where
  schemaCache : SchemaCache
  toolRegistry : ToolRegistry
deriving Repr

/-- clearSchemaCache from dynamicTools.ts. -/
def clearSchemaCache (s : ServerState) : ServerState :=
  { s with schemaCache := [] }

/-- clearToolRegistry from dynamicTools.ts. -/
def clearToolRegistry (s : ServerState) : ServerState :=
  { s with toolRegistry := [] }

structure RegStats where
  registered : Nat
  skipped : Nat
  errors : Nat
deriving Repr, DecidableEq

structure RegOutcome where
  stats : RegStats
  state : ServerState
  notified : Bool
  fetches : Nat
deriving Repr

/-- registerOps from dynamicTools.ts: register every operation whose tool
name is free, skip the rest; returns (registered, skipped) and the grown
registry. -/
def registerOps (conn : ConnectionInfo) :
    List ParsedOperation → ToolRegistry → (Nat × Nat) × ToolRegistry
  | [], r => ((0, 0), r)
  | op :: rest, r =>
    let toolName := buildToolName conn.apiName op.operationId
    if (assocFind r toolName).isSome then
      let res := registerOps conn rest r
      ((res.1.1, res.1.2 + 1), res.2)
    else
      let res := registerOps conn rest (assocSet r toolName ⟨conn, op⟩)
      ((res.1.1 + 1, res.1.2), res.2)

/-- registerToolsForConnection from dynamicTools.ts (incremental
registration): short-circuit when some registered tool name starts with
the api name and an underscore; otherwise fetch (cached), parse, filter,
register, and notify iff the net registered count is positive.  The only
modelled failure is the ARM fetch throw, which the source catches into an
errors tally of one. -/
def registerToolsForConnection (parseOps : JsonValue → String → List ParsedOperation)
    (fetchOracle : String → FetchOutcome) (conn : ConnectionInfo) (s : ServerState) :
    RegOutcome :=
  if s.toolRegistry.any (fun kv => strStartsWith kv.1 (conn.apiName ++ "_")) then
    { stats := ⟨0, 0, 0⟩, state := s, notified := false, fetches := 0 }
  else
    match fetchApiSchema conn.apiName s.schemaCache fetchOracle with
    | Except.error _ => { stats := ⟨0, 0, 1⟩, state := s, notified := false, fetches := 1 }
    | Except.ok (swagger, cache2, n) =>
      if truthy swagger = false then
        { stats := ⟨0, 0, 0⟩, state := { s with schemaCache := cache2 },
          notified := false, fetches := n }
      else
        let ops := filterOperations (parseOps swagger conn.apiName)
        let res := registerOps conn ops s.toolRegistry
        { stats := ⟨res.1.1, res.1.2, 0⟩,
          state := { schemaCache := cache2, toolRegistry := res.2 },
          notified := decide (0 < res.1.1), fetches := n }

/-- One iteration of the startup scan of registerDynamicTools: a fetch
throw is contained into the errors tally, a response without a usable
document skips the connection, and otherwise the operations register. -/
def scanConnection (parseOps : JsonValue → String → List ParsedOperation)
    (fetchOracle : String → FetchOutcome)
    (acc : RegStats × ServerState × Nat) (conn : ConnectionInfo) :
    RegStats × ServerState × Nat :=
  let stats := acc.1
  let s := acc.2.1
  let fetches := acc.2.2
  match fetchApiSchema conn.apiName s.schemaCache fetchOracle with
  | Except.error _ => ({ stats with errors := stats.errors + 1 }, s, fetches + 1)
  | Except.ok (swagger, cache2, n) =>
    if truthy swagger = false then
      (stats, { s with schemaCache := cache2 }, fetches + n)
    else
      let ops := filterOperations (parseOps swagger conn.apiName)
      let res := registerOps conn ops s.toolRegistry
      ({ registered := stats.registered + res.1.1, skipped := stats.skipped + res.1.2,
         errors := stats.errors },
       { schemaCache := cache2, toolRegistry := res.2 }, fetches + n)

/-- registerDynamicTools from dynamicTools.ts (startup scan) over the
already decoded connections listing. -/
def registerDynamicTools (parseOps : JsonValue → String → List ParsedOperation)
    (fetchOracle : String → FetchOutcome) (connections : List ConnectionInfo)
    (s : ServerState) : RegStats × ServerState × Nat :=
  connections.foldl (scanConnection parseOps fetchOracle) (⟨0, 0, 0⟩, s, 0)

/-- The refresh_tools handler from metaTools.ts: clear only the schema
cache, then run the startup scan again; a throw of the connections
listing is caught after the cache clear and leaves the registry alone. -/
def refreshTools (parseOps : JsonValue → String → List ParsedOperation)
    (fetchOracle : String → FetchOutcome)
    (connectionsResult : Except String (List ConnectionInfo)) (s : ServerState) :
    ServerState × Except String RegStats :=
  let s1 := clearSchemaCache s
  match connectionsResult with
  | Except.error e => (s1, Except.error e)
  | Except.ok conns =>
    let res := registerDynamicTools parseOps fetchOracle conns s1
    (res.2.1, Except.ok res.1)

theorem isPrefixOf_append_self : ∀ (l t : List Char), l.isPrefixOf (l ++ t) = true
  | [], _ => by simp
  | c :: rest, t => by
    simp only [List.cons_append, List.isPrefixOf, Bool.and_eq_true]
    exact ⟨by simp, isPrefixOf_append_self rest t⟩

theorem strStartsWith_buildToolName (a o : String) :
    strStartsWith (buildToolName a o) (a ++ "_") = true := by
  show ((a ++ "_").data).isPrefixOf ((a ++ "_" ++ snakeCase o).data) = true
  rw [String.data_append (a ++ "_") (snakeCase o)]
  exact isPrefixOf_append_self _ _

theorem assocFind_mem {α : Type u} : ∀ (l : List (String × α)) (k : String) (v : α),
    assocFind l k = some v → (k, v) ∈ l
  | [], k, v => by simp [assocFind]
  | (k1, v1) :: rest, k, v => by
    intro h
    by_cases h1 : k1 = k
    · rw [assocFind, if_pos h1] at h
      injection h with h2
      rw [← h1, ← h2]
      exact List.mem_cons_self _ _
    · rw [assocFind, if_neg h1] at h
      exact List.mem_cons_of_mem _ (assocFind_mem rest k v h)

theorem noPfxKey_find_none (r : ToolRegistry) (a o : String)
    (h : r.any (fun kv => strStartsWith kv.1 (a ++ "_")) = false) :
    assocFind r (buildToolName a o) = none := by
  cases hfind : assocFind r (buildToolName a o) with
  | none => rfl
  | some v =>
    have hmem := assocFind_mem r _ v hfind
    have : r.any (fun kv => strStartsWith kv.1 (a ++ "_")) = true :=
      List.any_eq_true.mpr ⟨(buildToolName a o, v), hmem, strStartsWith_buildToolName a o⟩
    rw [h] at this
    cases this

theorem registerOps_delta (conn : ConnectionInfo) :
    ∀ (ops : List ParsedOperation) (r : ToolRegistry),
    ∃ delta, (registerOps conn ops r).2 = r ++ delta
      ∧ (registerOps conn ops r).1.1 = delta.length
      ∧ ∀ kv ∈ delta, ∃ op,
          kv = (buildToolName conn.apiName op.operationId, ⟨conn, op⟩)
  | [], r => ⟨[], by simp [registerOps]⟩
  | op :: rest, r => by
    by_cases hfound : (assocFind r (buildToolName conn.apiName op.operationId)).isSome
    · obtain ⟨delta, hreg, hcount, hshape⟩ := registerOps_delta conn rest r
      refine ⟨delta, ?_, ?_, hshape⟩
      · simp only [registerOps, if_pos hfound]
        exact hreg
      · simp only [registerOps, if_pos hfound]
        exact hcount
    · have hnone : assocFind r (buildToolName conn.apiName op.operationId) = none := by
        cases hx : assocFind r (buildToolName conn.apiName op.operationId) with
        | none => rfl
        | some v => rw [hx] at hfound; simp at hfound
      have hset := assocSet_of_find_none r (buildToolName conn.apiName op.operationId)
        (⟨conn, op⟩ : DynamicToolContext) hnone
      obtain ⟨delta, hreg, hcount, hshape⟩ := registerOps_delta conn rest
        (assocSet r (buildToolName conn.apiName op.operationId) ⟨conn, op⟩)
      refine ⟨(buildToolName conn.apiName op.operationId, ⟨conn, op⟩) :: delta, ?_, ?_, ?_⟩
      · simp only [registerOps, if_neg hfound]
        rw [hreg, hset, List.append_assoc]
        rfl
      · simp only [registerOps, if_neg hfound]
        rw [hcount, List.length_cons]
      · intro kv hkv
        rcases List.mem_cons.mp hkv with hh | hh
        · exact ⟨op, hh⟩
        · exact hshape kv hh

theorem registerOps_first_registers (conn : ConnectionInfo) (op : ParsedOperation)
    (rest : List ParsedOperation) (r : ToolRegistry)
    (h : r.any (fun kv => strStartsWith kv.1 (conn.apiName ++ "_")) = false) :
    0 < (registerOps conn (op :: rest) r).1.1 := by
  have hnone := noPfxKey_find_none r conn.apiName op.operationId h
  have hfound : ¬(assocFind r (buildToolName conn.apiName op.operationId)).isSome := by
    rw [hnone]; simp
  simp only [registerOps, if_neg hfound]
  omega

theorem fetchApiSchema_stable (a : String) (cache : SchemaCache)
    (oracle : String → FetchOutcome) (sw : JsonValue) (c2 : SchemaCache) (n : Nat)
    (h : fetchApiSchema a cache oracle = Except.ok (sw, c2, n)) :
    ∃ n2, fetchApiSchema a c2 oracle = Except.ok (sw, c2, n2) := by
  rw [fetchApiSchema] at h
  cases hhit : assocFind cache a with
  | some v =>
    rw [hhit] at h
    injection h with h2
    obtain ⟨rfl, rfl, rfl⟩ : sw = v ∧ c2 = cache ∧ n = 0 := by
      refine ⟨?_, ?_, ?_⟩ <;> cases h2 <;> rfl
    exact ⟨0, by rw [fetchApiSchema, hhit]⟩
  | none =>
    rw [hhit] at h
    cases horacle : oracle a with
    | throwErr msg => rw [horacle] at h; cases h
    | ok result =>
      rw [horacle] at h
      simp only at h
      by_cases ht : truthy result = true
      · rw [if_pos ht] at h
        injection h with h2
        obtain ⟨rfl, rfl, rfl⟩ : sw = result ∧ c2 = assocSet cache a result ∧ n = 1 := by
          refine ⟨?_, ?_, ?_⟩ <;> cases h2 <;> rfl
        refine ⟨0, ?_⟩
        rw [fetchApiSchema, assocFind_assocSet_self]
      · rw [if_neg ht] at h
        injection h with h2
        obtain ⟨rfl, rfl, rfl⟩ : sw = result ∧ c2 = cache ∧ n = 1 := by
          refine ⟨?_, ?_, ?_⟩ <;> cases h2 <;> rfl
        refine ⟨1, ?_⟩
        rw [fetchApiSchema, hhit, horacle]
        simp only [if_neg ht]

/-- C4 — incremental registration is idempotent per api name: calling it
twice for connections with the same apiName leaves the registry size
unchanged by the second call and emits at most one list_changed
notification across the two calls; whenever some registry key already
starts with the api name and an underscore, the call returns all zeros
with the state untouched, no fetch and no notification; and a
notification is emitted only when the registered count is positive. -/
theorem c4_incremental_idempotent
    (parseOps : JsonValue → String → List ParsedOperation)
    (fetchOracle : String → FetchOutcome) :
    (∀ (connA connB : ConnectionInfo) (s : ServerState), connA.apiName = connB.apiName →
      (registerToolsForConnection parseOps fetchOracle connB
          (registerToolsForConnection parseOps fetchOracle connA s).state).state.toolRegistry.length
        = (registerToolsForConnection parseOps fetchOracle connA s).state.toolRegistry.length
      ∧ (if (registerToolsForConnection parseOps fetchOracle connA s).notified then 1 else 0)
          + (if (registerToolsForConnection parseOps fetchOracle connB
              (registerToolsForConnection parseOps fetchOracle connA s).state).notified
            then 1 else 0) ≤ 1)
    ∧ (∀ (conn : ConnectionInfo) (s : ServerState),
        s.toolRegistry.any (fun kv => strStartsWith kv.1 (conn.apiName ++ "_")) = true →
        registerToolsForConnection parseOps fetchOracle conn s =
          RegOutcome.mk ⟨0, 0, 0⟩ s false 0)
    ∧ (∀ (conn : ConnectionInfo) (s : ServerState),
        (registerToolsForConnection parseOps fetchOracle conn s).notified = true →
        0 < (registerToolsForConnection parseOps fetchOracle conn s).stats.registered) := by
  have hshort : ∀ (conn : ConnectionInfo) (s : ServerState),
      s.toolRegistry.any (fun kv => strStartsWith kv.1 (conn.apiName ++ "_")) = true →
      registerToolsForConnection parseOps fetchOracle conn s =
        RegOutcome.mk ⟨0, 0, 0⟩ s false 0 := by
    intro conn s h
    rw [registerToolsForConnection, if_pos h]
  have hfull : ∀ (conn : ConnectionInfo) (s : ServerState)
      (sw : JsonValue) (c2 : SchemaCache) (n : Nat),
      ¬ s.toolRegistry.any (fun kv => strStartsWith kv.1 (conn.apiName ++ "_")) = true →
      fetchApiSchema conn.apiName s.schemaCache fetchOracle = Except.ok (sw, c2, n) →
      ¬ truthy sw = false →
      registerToolsForConnection parseOps fetchOracle conn s =
        RegOutcome.mk
          ⟨(registerOps conn (filterOperations (parseOps sw conn.apiName)) s.toolRegistry).1.1,
            (registerOps conn (filterOperations (parseOps sw conn.apiName)) s.toolRegistry).1.2, 0⟩
          (ServerState.mk c2
            (registerOps conn (filterOperations (parseOps sw conn.apiName)) s.toolRegistry).2)
          (decide (0 < (registerOps conn
            (filterOperations (parseOps sw conn.apiName)) s.toolRegistry).1.1))
          n := by
    intro conn s sw c2 n hp hf ht
    rw [registerToolsForConnection, if_neg hp, hf]
    dsimp only
    rw [if_neg ht]
  have hfalsy : ∀ (conn : ConnectionInfo) (s : ServerState)
      (sw : JsonValue) (c2 : SchemaCache) (n : Nat),
      ¬ s.toolRegistry.any (fun kv => strStartsWith kv.1 (conn.apiName ++ "_")) = true →
      fetchApiSchema conn.apiName s.schemaCache fetchOracle = Except.ok (sw, c2, n) →
      truthy sw = false →
      registerToolsForConnection parseOps fetchOracle conn s =
        RegOutcome.mk ⟨0, 0, 0⟩ (ServerState.mk c2 s.toolRegistry) false n := by
    intro conn s sw c2 n hp hf ht
    rw [registerToolsForConnection, if_neg hp, hf]
    dsimp only
    rw [if_pos ht]
  have herr : ∀ (conn : ConnectionInfo) (s : ServerState) (e : String),
      ¬ s.toolRegistry.any (fun kv => strStartsWith kv.1 (conn.apiName ++ "_")) = true →
      fetchApiSchema conn.apiName s.schemaCache fetchOracle = Except.error e →
      registerToolsForConnection parseOps fetchOracle conn s =
        RegOutcome.mk ⟨0, 0, 1⟩ s false 1 := by
    intro conn s e hp hf
    rw [registerToolsForConnection, if_neg hp, hf]
  have hnotif : ∀ (conn : ConnectionInfo) (s : ServerState),
      (registerToolsForConnection parseOps fetchOracle conn s).notified = true →
      0 < (registerToolsForConnection parseOps fetchOracle conn s).stats.registered := by
    intro conn s h
    by_cases hpfx : s.toolRegistry.any
        (fun kv => strStartsWith kv.1 (conn.apiName ++ "_")) = true
    · rw [hshort conn s hpfx] at h
      cases h
    · cases hfetch : fetchApiSchema conn.apiName s.schemaCache fetchOracle with
      | error e =>
        rw [herr conn s e hpfx hfetch] at h
        cases h
      | ok t =>
        obtain ⟨sw, c2, n⟩ := t
        by_cases ht : truthy sw = false
        · rw [hfalsy conn s sw c2 n hpfx hfetch ht] at h
          cases h
        · rw [hfull conn s sw c2 n hpfx hfetch ht] at h ⊢
          exact of_decide_eq_true h
  refine ⟨?_, hshort, hnotif⟩
  intro connA connB s hapi
  by_cases hpfx : s.toolRegistry.any
      (fun kv => strStartsWith kv.1 (connA.apiName ++ "_")) = true
  · have hpfxB : s.toolRegistry.any
        (fun kv => strStartsWith kv.1 (connB.apiName ++ "_")) = true := by
      rw [← hapi]
      exact hpfx
    have h1 := hshort connA s hpfx
    have h2 := hshort connB s hpfxB
    constructor
    · simp only [h1, h2]
    · simp [h1, h2]
  · have hpfxB : ¬ s.toolRegistry.any
        (fun kv => strStartsWith kv.1 (connB.apiName ++ "_")) = true := by
      rw [← hapi]
      exact hpfx
    have hpfxF : s.toolRegistry.any
        (fun kv => strStartsWith kv.1 (connA.apiName ++ "_")) = false := by
      simpa using hpfx
    cases hfetch : fetchApiSchema connA.apiName s.schemaCache fetchOracle with
    | error e =>
      have hfetchB : fetchApiSchema connB.apiName s.schemaCache fetchOracle
          = Except.error e := by
        rw [← hapi]
        exact hfetch
      have ho1 := herr connA s e hpfx hfetch
      have ho2 := herr connB s e hpfxB hfetchB
      constructor
      · simp only [ho1, ho2]
      · simp [ho1, ho2]
    | ok t =>
      obtain ⟨sw, c2, n⟩ := t
      obtain ⟨n2, hfetch2⟩ := fetchApiSchema_stable connA.apiName s.schemaCache
        fetchOracle sw c2 n hfetch
      have hfetchB2 : fetchApiSchema connB.apiName c2 fetchOracle
          = Except.ok (sw, c2, n2) := by
        rw [← hapi]
        exact hfetch2
      by_cases ht : truthy sw = false
      · have ho1 := hfalsy connA s sw c2 n hpfx hfetch ht
        have hfetchB2s : fetchApiSchema connB.apiName
            (ServerState.mk c2 s.toolRegistry).schemaCache fetchOracle
            = Except.ok (sw, c2, n2) := hfetchB2
        have hpfxB2 : ¬ (ServerState.mk c2 s.toolRegistry).toolRegistry.any
            (fun kv => strStartsWith kv.1 (connB.apiName ++ "_")) = true := hpfxB
        have ho2 := hfalsy connB (ServerState.mk c2 s.toolRegistry) sw c2 n2
          hpfxB2 hfetchB2s ht
        constructor
        · simp only [ho1, ho2]
        · simp [ho1, ho2]
      · cases hops : filterOperations (parseOps sw connA.apiName) with
        | nil =>
          have ho1 := hfull connA s sw c2 n hpfx hfetch ht
          rw [hops] at ho1
          have hfetchB2s : fetchApiSchema connB.apiName
              (ServerState.mk c2 s.toolRegistry).schemaCache fetchOracle
              = Except.ok (sw, c2, n2) := hfetchB2
          have hpfxB2 : ¬ (ServerState.mk c2 s.toolRegistry).toolRegistry.any
              (fun kv => strStartsWith kv.1 (connB.apiName ++ "_")) = true := hpfxB
          have ho2 := hfull connB (ServerState.mk c2 s.toolRegistry) sw c2 n2
            hpfxB2 hfetchB2s ht
          rw [show filterOperations (parseOps sw connB.apiName) = [] by
            rw [← hapi, hops]] at ho2
          rw [show (registerOps connA ([] : List ParsedOperation) s.toolRegistry)
            = ((0, 0), s.toolRegistry) from rfl] at ho1
          rw [show (registerOps connB ([] : List ParsedOperation)
              (ServerState.mk c2 s.toolRegistry).toolRegistry)
            = ((0, 0), s.toolRegistry) from rfl] at ho2
          constructor
          · simp only [ho1, ho2]
          · simp [ho1, ho2]
        | cons op rest =>
          have hreg1 : 0 < (registerOps connA (op :: rest) s.toolRegistry).1.1 :=
            registerOps_first_registers connA op rest s.toolRegistry hpfxF
          obtain ⟨delta, hregeq, hcount, hshape⟩ :=
            registerOps_delta connA (op :: rest) s.toolRegistry
          have hdelta_ne : delta ≠ [] := by
            intro habs
            rw [habs] at hcount
            simp at hcount
            omega
          have ho1 := hfull connA s sw c2 n hpfx hfetch ht
          rw [hops] at ho1
          have hanyB : ((registerOps connA (op :: rest) s.toolRegistry).2).any
              (fun kv => strStartsWith kv.1 (connB.apiName ++ "_")) = true := by
            obtain ⟨kv, delta2, hdelta⟩ := List.exists_cons_of_ne_nil hdelta_ne
            obtain ⟨op2, hop2⟩ := hshape kv (by rw [hdelta]; exact List.mem_cons_self _ _)
            refine List.any_eq_true.mpr ⟨kv, ?_, ?_⟩
            · rw [hregeq]
              exact List.mem_append_right _ (by rw [hdelta]; exact List.mem_cons_self _ _)
            · rw [hop2, ← hapi]
              exact strStartsWith_buildToolName connA.apiName op2.operationId
          have ho2 := hshort connB
            (ServerState.mk c2 (registerOps connA (op :: rest) s.toolRegistry).2) hanyB
          constructor
          · simp only [ho1, ho2]
          · simp only [ho1, ho2]
            have hnot1 : decide (0 < (registerOps connA (op :: rest) s.toolRegistry).1.1)
                = true := decide_eq_true hreg1
            simp [hnot1]

theorem registerToolsForConnection_registry_cases
    (parseOps : JsonValue → String → List ParsedOperation)
    (fetchOracle : String → FetchOutcome) (conn : ConnectionInfo) (s : ServerState) :
    (registerToolsForConnection parseOps fetchOracle conn s).state.toolRegistry
      = s.toolRegistry
    ∨ ∃ swagger, (registerToolsForConnection parseOps fetchOracle conn s).state.toolRegistry
      = (registerOps conn (filterOperations (parseOps swagger conn.apiName))
          s.toolRegistry).2 := by
  rw [registerToolsForConnection]
  by_cases hpfx : s.toolRegistry.any
      (fun kv => strStartsWith kv.1 (conn.apiName ++ "_")) = true
  · rw [if_pos hpfx]
    exact Or.inl rfl
  · rw [if_neg hpfx]
    cases hf : fetchApiSchema conn.apiName s.schemaCache fetchOracle with
    | error e => exact Or.inl rfl
    | ok t =>
      obtain ⟨sw, c2, n⟩ := t
      dsimp only
      by_cases ht : truthy sw = false
      · rw [if_pos ht]
        exact Or.inl rfl
      · rw [if_neg ht]
        exact Or.inr ⟨sw, rfl⟩

theorem scanConnection_registry_cases
    (parseOps : JsonValue → String → List ParsedOperation)
    (fetchOracle : String → FetchOutcome)
    (acc : RegStats × ServerState × Nat) (conn : ConnectionInfo) :
    (scanConnection parseOps fetchOracle acc conn).2.1.toolRegistry
      = acc.2.1.toolRegistry
    ∨ ∃ swagger, (scanConnection parseOps fetchOracle acc conn).2.1.toolRegistry
      = (registerOps conn (filterOperations (parseOps swagger conn.apiName))
          acc.2.1.toolRegistry).2 := by
  rw [scanConnection]
  dsimp only
  cases hf : fetchApiSchema conn.apiName acc.2.1.schemaCache fetchOracle with
  | error e => exact Or.inl rfl
  | ok t =>
    obtain ⟨sw, c2, n⟩ := t
    dsimp only
    by_cases ht : truthy sw = false
    · rw [if_pos ht]
      exact Or.inl rfl
    · rw [if_neg ht]
      exact Or.inr ⟨sw, rfl⟩

theorem foldl_scanConnection_extends
    (parseOps : JsonValue → String → List ParsedOperation)
    (fetchOracle : String → FetchOutcome) :
    ∀ (conns : List ConnectionInfo) (acc : RegStats × ServerState × Nat),
    ∃ delta, (conns.foldl (scanConnection parseOps fetchOracle) acc).2.1.toolRegistry
      = acc.2.1.toolRegistry ++ delta
  | [], acc => ⟨[], by simp⟩
  | conn :: rest, acc => by
    have hstep : ∃ d0, (scanConnection parseOps fetchOracle acc conn).2.1.toolRegistry
        = acc.2.1.toolRegistry ++ d0 := by
      rcases scanConnection_registry_cases parseOps fetchOracle acc conn with h | ⟨sw, h⟩
      · exact ⟨[], by simp [h]⟩
      · obtain ⟨delta, hreg, -, -⟩ := registerOps_delta conn
          (filterOperations (parseOps sw conn.apiName)) acc.2.1.toolRegistry
        exact ⟨delta, by rw [h, hreg]⟩
    obtain ⟨d0, hd0⟩ := hstep
    obtain ⟨d1, hd1⟩ := foldl_scanConnection_extends parseOps fetchOracle rest
      (scanConnection parseOps fetchOracle acc conn)
    refine ⟨d0 ++ d1, ?_⟩
    rw [List.foldl_cons, hd1, hd0, List.append_assoc]

/-- C8 — the refresh_tools operation clears only the schema cache and
never removes or changes tool registry entries: the registry after a
refresh is the registry before it with zero or more appended entries, so
every (key, value) pair present before the refresh is found unchanged
after it. -/
theorem c8_refresh_preserves_registry
    (parseOps : JsonValue → String → List ParsedOperation)
    (fetchOracle : String → FetchOutcome)
    (connectionsResult : Except String (List ConnectionInfo)) (s : ServerState) :
    (∃ delta, (refreshTools parseOps fetchOracle connectionsResult s).1.toolRegistry
        = s.toolRegistry ++ delta)
    ∧ (∀ (k : String) (v : DynamicToolContext), assocFind s.toolRegistry k = some v →
        assocFind (refreshTools parseOps fetchOracle connectionsResult s).1.toolRegistry k
          = some v) := by
  have hext : ∃ delta,
      (refreshTools parseOps fetchOracle connectionsResult s).1.toolRegistry
        = s.toolRegistry ++ delta := by
    cases connectionsResult with
    | error e => exact ⟨[], by simp [refreshTools, clearSchemaCache]⟩
    | ok conns =>
      obtain ⟨delta, hdelta⟩ := foldl_scanConnection_extends parseOps fetchOracle conns
        (⟨0, 0, 0⟩, clearSchemaCache s, 0)
      exact ⟨delta, by simpa [refreshTools, registerDynamicTools, clearSchemaCache]
        using hdelta⟩
  refine ⟨hext, ?_⟩
  intro k v hfind
  obtain ⟨delta, hdelta⟩ := hext
  rw [hdelta]
  rw [assocFind_append_left s.toolRegistry delta k (by rw [hfind]; rfl)]
  exact hfind

/-- A connected Office 365 connection. -/
def connOffice : ConnectionInfo :=
  { name := "office365", apiName := "office365", displayName := "Office 365 Outlook",
    status := "Connected", apiId := "/providers/Microsoft.Web/managedApis/office365" }

/-- A plain SendEmail operation with no family annotation. -/
def opSendEmail : ParsedOperation :=
  { operationId := "SendEmail", method := "post",
    path := "/\x7bconnectionId\x7d/v2/Mail", summary := "Send an email",
    description := "", deprecated := false, visibility := "none", isTrigger := false,
    apiAnnotation := none, parameters := [], requestBody := none }

/-- A parser oracle producing the single SendEmail operation. -/
def parseOpsW : JsonValue → String → List ParsedOperation :=
  fun _ _ => [opSendEmail]

/-- A transport oracle answering every managed-API fetch with a document. -/
def fetchOracleW : String → FetchOutcome :=
  fun _ => FetchOutcome.ok (JsonValue.obj [("swagger", JsonValue.str "2.0")])

/-- The registry context stored for the SendEmail tool. -/
def ctxW : DynamicToolContext :=
  ⟨connOffice, opSendEmail⟩

/-- An empty server state. -/
def s0W : ServerState :=
  ServerState.mk [] []

/-- A server state already holding the office365 SendEmail tool. -/
def s1W : ServerState :=
  ServerState.mk [] [(buildToolName "office365" "SendEmail", ctxW)]

theorem c4_incremental_idempotent_witness :
    ((registerToolsForConnection parseOpsW fetchOracleW connOffice
        (registerToolsForConnection parseOpsW fetchOracleW connOffice s0W).state).state.toolRegistry.length
      = (registerToolsForConnection parseOpsW fetchOracleW connOffice s0W).state.toolRegistry.length)
    ∧ registerToolsForConnection parseOpsW fetchOracleW connOffice s1W =
        RegOutcome.mk ⟨0, 0, 0⟩ s1W false 0
    ∧ 0 < (registerToolsForConnection parseOpsW fetchOracleW connOffice s0W).stats.registered := by
  refine ⟨((c4_incremental_idempotent parseOpsW fetchOracleW).1 connOffice connOffice s0W rfl).1,
    (c4_incremental_idempotent parseOpsW fetchOracleW).2.1 connOffice s1W (by decide),
    (c4_incremental_idempotent parseOpsW fetchOracleW).2.2 connOffice s0W (by decide)⟩

theorem c8_refresh_preserves_registry_witness :
    assocFind (refreshTools parseOpsW fetchOracleW (Except.ok []) s1W).1.toolRegistry
      (buildToolName "office365" "SendEmail") = some ctxW :=
  (c8_refresh_preserves_registry parseOpsW fetchOracleW (Except.ok []) s1W).2
    (buildToolName "office365" "SendEmail") ctxW (by decide)

/-- The registry name-consistency invariant: every key equals the tool
name built from its stored connection's api name and its stored
operation's operation id. -/
def registryInv (r : ToolRegistry) : Prop :=
  ∀ kv ∈ r, kv.1 = buildToolName kv.2.connection.apiName kv.2.operation.operationId

/-- C9 — the registry name-consistency invariant holds in every reachable
state: it holds of the empty registry and is preserved by registerOps, by
incremental registration, by the startup scan, by refresh, and by
clearToolRegistry - the only mutations - which is what makes the
name-collision short circuits sound. -/
theorem c9_registry_name_invariant :
    registryInv []
    ∧ (∀ (conn : ConnectionInfo) (ops : List ParsedOperation) (r : ToolRegistry),
        registryInv r → registryInv (registerOps conn ops r).2)
    ∧ (∀ (parseOps : JsonValue → String → List ParsedOperation)
        (fetchOracle : String → FetchOutcome) (conn : ConnectionInfo) (s : ServerState),
        registryInv s.toolRegistry →
        registryInv (registerToolsForConnection parseOps fetchOracle conn s).state.toolRegistry)
    ∧ (∀ (parseOps : JsonValue → String → List ParsedOperation)
        (fetchOracle : String → FetchOutcome) (conns : List ConnectionInfo) (s : ServerState),
        registryInv s.toolRegistry →
        registryInv (registerDynamicTools parseOps fetchOracle conns s).2.1.toolRegistry)
    ∧ (∀ (parseOps : JsonValue → String → List ParsedOperation)
        (fetchOracle : String → FetchOutcome)
        (connectionsResult : Except String (List ConnectionInfo)) (s : ServerState),
        registryInv s.toolRegistry →
        registryInv (refreshTools parseOps fetchOracle connectionsResult s).1.toolRegistry)
    ∧ (∀ s : ServerState, registryInv (clearToolRegistry s).toolRegistry) := by
  have hROps : ∀ (conn : ConnectionInfo) (ops : List ParsedOperation) (r : ToolRegistry),
      registryInv r → registryInv (registerOps conn ops r).2 := by
    intro conn ops r hinv kv hkv
    obtain ⟨delta, hreg, -, hshape⟩ := registerOps_delta conn ops r
    rw [hreg] at hkv
    rcases List.mem_append.mp hkv with h | h
    · exact hinv kv h
    · obtain ⟨op, hop⟩ := hshape kv h
      rw [hop]
  have hIncr : ∀ (parseOps : JsonValue → String → List ParsedOperation)
      (fetchOracle : String → FetchOutcome) (conn : ConnectionInfo) (s : ServerState),
      registryInv s.toolRegistry →
      registryInv (registerToolsForConnection parseOps fetchOracle conn s).state.toolRegistry := by
    intro parseOps fetchOracle conn s hinv
    rcases registerToolsForConnection_registry_cases parseOps fetchOracle conn s
      with h | ⟨sw, h⟩
    · rw [h]; exact hinv
    · rw [h]; exact hROps conn _ _ hinv
  have hScan : ∀ (parseOps : JsonValue → String → List ParsedOperation)
      (fetchOracle : String → FetchOutcome) (conns : List ConnectionInfo)
      (acc : RegStats × ServerState × Nat),
      registryInv acc.2.1.toolRegistry →
      registryInv (conns.foldl (scanConnection parseOps fetchOracle) acc).2.1.toolRegistry := by
    intro parseOps fetchOracle conns
    induction conns with
    | nil => intro acc h; simpa using h
    | cons conn rest ih =>
      intro acc h
      rw [List.foldl_cons]
      refine ih (scanConnection parseOps fetchOracle acc conn) ?_
      rcases scanConnection_registry_cases parseOps fetchOracle acc conn with h2 | ⟨sw, h2⟩
      · rw [h2]; exact h
      · rw [h2]; exact hROps conn _ _ h
  refine ⟨?_, hROps, hIncr, ?_, ?_, ?_⟩
  · intro kv h
    cases h
  · intro parseOps fetchOracle conns s hinv
    exact hScan parseOps fetchOracle conns (⟨0, 0, 0⟩, s, 0) hinv
  · intro parseOps fetchOracle connectionsResult s hinv
    cases connectionsResult with
    | error e => exact hinv
    | ok conns =>
      exact hScan parseOps fetchOracle conns (⟨0, 0, 0⟩, clearSchemaCache s, 0) hinv
  · intro s kv h
    cases h

theorem c9_registry_name_invariant_witness :
    registryInv (registerToolsForConnection parseOpsW fetchOracleW connOffice
      s0W).state.toolRegistry :=
  c9_registry_name_invariant.2.2.1 parseOpsW fetchOracleW connOffice s0W
    (by intro kv h; cases h)
